import Mathlib

/-!
Verification development for the ABCdb `abcparser_peg` core (two Rust source
files, `src/grammar.rs` and `src/visitors.rs`).

Embedding choices:
* The input text is a `List Char`; offsets are character offsets into that
  list.  (The Rust code uses byte offsets into a UTF-8 `&str`; for the
  properties below only the induced slicing structure matters, and the two
  views are related by the order-preserving bijection between char positions
  and byte positions.)
* The pest 0.4 `impl_rdp!` grammar of `grammar.rs` is embedded as a deep
  pattern type `Expr` interpreted by a PEG matcher `matchE` with a fuel
  parameter for termination.  Fuel exhaustion is a distinct outcome
  (`MRes.gas`), kept apart from genuine match failure so that running out of
  fuel can never be mistaken for a `SyntaxError`.
* Every named rule of the grammar appends a `(rule, start, end)` token to the
  queue when it succeeds, with the parent token placed before the tokens of
  its sub-rules, exactly as the pest 0.4 runtime builds its queue (the flat
  preorder trace that `visitors.rs` consumes).
* `visitors.rs` is embedded function-for-function (`RString`, the
  `_gather_children` / `_recurse_children` mutual recursion, and
  `visit_parse_tree`), again with a fuel parameter; the supplied fuel is shown
  sufficient for every trace the parser can produce.
-/

set_option maxHeartbeats 1000000

namespace AbcDb

/-- The `Rule` enumeration generated by `impl_rdp!` from the grammar in
`src/grammar.rs`: one constructor per named grammar rule. -/
inductive Rule where
  | music_code_line | abc_line | element | chord_or_text | gracing | note | unused_char
  | meter | meter_num
  | tempo | tempo_spec | tempo_desc
  | key | key_def | mode | major | lydian | ionian | mixolydian | dorian | aeolian
  | phrygian | locrian | minor | global_accidental
  | inline_field | ifield_text | ifield_key | ifield_length | ifield_meter | ifield_part
  | ifield_tempo | ifield_userdef | ifield_voice
  | pitch | basenote | octave | accidental
  | note_length | note_length_bigger | note_length_smaller | note_length_full
  | note_length_slashes | note_length_strict
  | broken_rhythm | b_sep | b_elem
  | rest | multi_measure_rest
  | clef | clef_spec | clef_note | clef_name | clef_line | clef_middle | clef_transpose
  | clef_octave | clef_stafflines
  | backquote
  | barline | invisible_barline | double_repeat_barline | dashed_barline
  | nth_repeat | nth_repeat_num | nth_repeat_text | end_nth_repeat
  | tie | slur_begin | slur_end
  | grace_notes | grace_note_stem | grace_note | acciaccatura
  | tuplet
  | long_gracing | gracing1 | gracing2 | gracing3 | gracing4 | gracing_nonstandard
  | gracing_catchall
  | userdef_symbol
  | stem
  | chord | chord_accidental | chord_type
  | text_expression | bad_text_expression
  | abc_eol | line_continuation
  | hard_line_break
  | voice
  | rollback
  | reserved_char
  | chord_newline | measure_repeat | non_quote | non_right_bracket
  | DIGITS | WSP
deriving DecidableEq

/-- The pest pattern algebra used by the grammar: literal strings `["..."]`,
character ranges `['a'..'z']`, named-rule references, sequence `~`, ordered
choice `|`, greedy `*` and `?`, negative lookahead `!`, `any`, and the
end-of-input anchor `eoi`.  (`+` is expressed as `e ~ e*`, see `plus`.) -/
inductive Expr where
  | lit (cs : List Char)
  | rng (lo hi : Char)
  | refR (r : Rule)
  | seq (a b : Expr)
  | cho (a b : Expr)
  | star (e : Expr)
  | opt (e : Expr)
  | neg (e : Expr)
  | anyC
  | eoi
deriving DecidableEq

/-- Literal-string pattern from a Lean string literal. -/
def lit (s : String) : Expr := .lit s.toList

/-- Right-nested sequence of patterns (pest `a ~ b ~ c`). -/
def sq : List Expr → Expr
  | [] => .eoi
  | [e] => e
  | e :: es => .seq e (sq es)

/-- Right-nested ordered choice of patterns (pest `a | b | c`). -/
def ch : List Expr → Expr
  | [] => .eoi
  | [e] => e
  | e :: es => .cho e (ch es)

/-- pest `e+`, i.e. `e ~ e*` with greedy repetition. -/
def plus (e : Expr) : Expr := .seq e (.star e)

/-- Named-rule reference. -/
def R (r : Rule) : Expr := .refR r

/-- ASCII apostrophe (written via its code point to keep source plain). -/
def apostC : Char := Char.ofNat 39
/-- ASCII backtick. -/
def backqC : Char := Char.ofNat 96
/-- ASCII left curly bracket. -/
def lbraceC : Char := Char.ofNat 123
/-- ASCII right curly bracket. -/
def rbraceC : Char := Char.ofNat 125

/-- The grammar of `src/grammar.rs`, rule for rule.  Each arm is the literal
translation of the corresponding `impl_rdp!` rule body. -/
def grammar : Rule → Expr
  -- music_code_line = { abc_line ~ eoi }
  | .music_code_line => sq [R .abc_line, .eoi]
  -- abc_line = { ( ( barline? ~ element+ ~ (barline ~ element+)* ~ barline? ) | barline ) ~ abc_eol }
  | .abc_line =>
      sq [ch [sq [.opt (R .barline), plus (R .element),
                  .star (sq [R .barline, plus (R .element)]), .opt (R .barline)],
              R .barline],
          R .abc_eol]
  -- element = { broken_rhythm | stem | WSP | chord_or_text | gracing | grace_notes | tuplet |
  --             slur_begin | slur_end | rollback | multi_measure_rest | measure_repeat |
  --             nth_repeat | end_nth_repeat | inline_field | hard_line_break | unused_char }
  | .element =>
      ch [R .broken_rhythm, R .stem, R .WSP, R .chord_or_text, R .gracing, R .grace_notes,
          R .tuplet, R .slur_begin, R .slur_end, R .rollback, R .multi_measure_rest,
          R .measure_repeat, R .nth_repeat, R .end_nth_repeat, R .inline_field,
          R .hard_line_break, R .unused_char]
  -- chord_or_text = { ["\""] ~ (chord | text_expression) ~
  --                   (chord_newline ~ (chord | text_expression))* ~ ["\""] }
  | .chord_or_text =>
      sq [lit "\"", ch [R .chord, R .text_expression],
          .star (sq [R .chord_newline, ch [R .chord, R .text_expression]]), lit "\""]
  -- gracing = { ["."] | userdef_symbol | long_gracing }
  | .gracing => ch [lit ".", R .userdef_symbol, R .long_gracing]
  -- note = { pitch ~ note_length? ~ tie? }
  | .note => sq [R .pitch, .opt (R .note_length), .opt (R .tie)]
  -- unused_char = { reserved_char | backquote }
  | .unused_char => ch [R .reserved_char, R .backquote]
  -- meter = { meter_num | ( (["C"] | ["c"]) ~ ["|"]? ) | ["none"] }
  | .meter => ch [R .meter_num, sq [ch [lit "C", lit "c"], .opt (lit "|")], lit "none"]
  -- meter_num = { ( ( ["("] ~ WSP* ~ DIGITS ~ (WSP* ~ ["+"] ~ WSP* ~ DIGITS)* ~ WSP* ~ [")"] ) |
  --                 ( DIGITS ~ (WSP* ~ ["+"] ~ WSP* ~ DIGITS)* ) ) ~ WSP* ~ ["/"] ~ WSP* ~ DIGITS }
  | .meter_num =>
      sq [ch [sq [lit "(", .star (R .WSP), R .DIGITS,
                  .star (sq [.star (R .WSP), lit "+", .star (R .WSP), R .DIGITS]),
                  .star (R .WSP), lit ")"],
              sq [R .DIGITS, .star (sq [.star (R .WSP), lit "+", .star (R .WSP), R .DIGITS])]],
          .star (R .WSP), lit "/", .star (R .WSP), R .DIGITS]
  -- tempo = { ( tempo_spec ~ ( WSP+ ~ tempo_desc )? ) | ( tempo_desc ~ ( WSP+ ~ tempo_spec )? ) }
  | .tempo =>
      ch [sq [R .tempo_spec, .opt (sq [plus (R .WSP), R .tempo_desc])],
          sq [R .tempo_desc, .opt (sq [plus (R .WSP), R .tempo_spec])]]
  -- tempo_spec = { ( note_length_strict ~ ["="] ~ DIGITS ) |
  --                ( (["C"] | ["c"]) ~ note_length? ~ ["="] ~ DIGITS ) | DIGITS }
  | .tempo_spec =>
      ch [sq [R .note_length_strict, lit "=", R .DIGITS],
          sq [ch [lit "C", lit "c"], .opt (R .note_length), lit "=", R .DIGITS],
          R .DIGITS]
  -- tempo_desc = { ["\""] ~ non_quote* ~ ["\""] }
  | .tempo_desc => sq [lit "\"", .star (R .non_quote), lit "\""]
  -- key = { ( key_def ~ ( WSP+ ~ clef )? ) | clef | ["HP"] | ["Hp"] }
  | .key =>
      ch [sq [R .key_def, .opt (sq [plus (R .WSP), R .clef])], R .clef, lit "HP", lit "Hp"]
  -- key_def = { basenote ~ (["#"] | ["b"] | ["♯"] | ["♭"])? ~ ( WSP* ~ mode )? ~
  --             ( WSP ~ ( WSP* ~ global_accidental )+ )* }
  | .key_def =>
      sq [R .basenote, .opt (ch [lit "#", lit "b", lit "♯", lit "♭"]),
          .opt (sq [.star (R .WSP), R .mode]),
          .star (sq [R .WSP, plus (sq [.star (R .WSP), R .global_accidental])])]
  -- mode = { major | lydian | ionian | mixolydian | dorian | aeolian | phrygian | locrian |
  --          minor | ["exp"] }
  | .mode =>
      ch [R .major, R .lydian, R .ionian, R .mixolydian, R .dorian, R .aeolian, R .phrygian,
          R .locrian, R .minor, lit "exp"]
  -- major = { ["maj"] ~ (["o"] ~ ["r"]?)? }
  | .major => sq [lit "maj", .opt (sq [lit "o", .opt (lit "r")])]
  -- lydian = { ["lyd"] ~ (["i"] ~ (["a"] ~ (["n"])?)?)? }
  | .lydian => sq [lit "lyd", .opt (sq [lit "i", .opt (sq [lit "a", .opt (lit "n")])])]
  -- ionian = { ["ion"] ~ (["i"] ~ (["a"] ~ (["n"])?)?)? }
  | .ionian => sq [lit "ion", .opt (sq [lit "i", .opt (sq [lit "a", .opt (lit "n")])])]
  -- mixolydian = { ["mix"] ~ (["o"] ~ (["l"] ~ (["y"] ~ (["d"] ~ (["i"] ~ (["a"] ~
  --                (["n"])?)?)?)?)?)?)? }
  | .mixolydian =>
      sq [lit "mix",
          .opt (sq [lit "o",
            .opt (sq [lit "l",
              .opt (sq [lit "y",
                .opt (sq [lit "d",
                  .opt (sq [lit "i", .opt (sq [lit "a", .opt (lit "n")])])])])])])]
  -- dorian = { ["dor"] ~ (["i"] ~ (["a"] ~ (["n"])?)?)? }
  | .dorian => sq [lit "dor", .opt (sq [lit "i", .opt (sq [lit "a", .opt (lit "n")])])]
  -- aeolian = { ["aeo"] ~ (["l"] ~ (["i"] ~ (["a"] ~ (["n"])?)?)?)? }
  | .aeolian =>
      sq [lit "aeo",
          .opt (sq [lit "l", .opt (sq [lit "i", .opt (sq [lit "a", .opt (lit "n")])])])]
  -- phrygian = { ["phr"] ~ (["y"] ~ (["g"] ~ (["i"] ~ (["a"] ~ (["n"])?)?)?)?)? }
  | .phrygian =>
      sq [lit "phr",
          .opt (sq [lit "y",
            .opt (sq [lit "g", .opt (sq [lit "i", .opt (sq [lit "a", .opt (lit "n")])])])])]
  -- locrian = { ["loc"] ~ (["r"] ~ (["i"] ~ (["a"] ~ (["n"])?)?)?)? }
  | .locrian =>
      sq [lit "loc",
          .opt (sq [lit "r", .opt (sq [lit "i", .opt (sq [lit "a", .opt (lit "n")])])])]
  -- minor = { ["m"] ~ (["in"] ~ (["o"] ~ ["r"]?)?)? }
  | .minor => sq [lit "m", .opt (sq [lit "in", .opt (sq [lit "o", .opt (lit "r")])])]
  -- global_accidental = { accidental ~ basenote }
  | .global_accidental => sq [R .accidental, R .basenote]
  -- inline_field = { ifield_text | ifield_key | ifield_length | ifield_meter | ifield_part |
  --                  ifield_tempo | ifield_userdef | ifield_voice }
  | .inline_field =>
      ch [R .ifield_text, R .ifield_key, R .ifield_length, R .ifield_meter, R .ifield_part,
          R .ifield_tempo, R .ifield_userdef, R .ifield_voice]
  -- ifield_text = { ["["] ~ (["I"] | ["N"] | ["R"] | ["r"]) ~ [":"] ~ non_right_bracket+ ~ ["]"] }
  | .ifield_text =>
      sq [lit "[", ch [lit "I", lit "N", lit "R", lit "r"], lit ":",
          plus (R .non_right_bracket), lit "]"]
  -- ifield_key = { ["[K:"] ~ WSP* ~ ( ["none"] | key? ) ~ ["]"] }
  | .ifield_key => sq [lit "[K:", .star (R .WSP), ch [lit "none", .opt (R .key)], lit "]"]
  -- ifield_length = { ["[L:"] ~ WSP* ~ note_length_strict ~ ["]"] }
  | .ifield_length => sq [lit "[L:", .star (R .WSP), R .note_length_strict, lit "]"]
  -- ifield_meter = { ["[M:"] ~ WSP* ~ meter ~ ["]"] }
  | .ifield_meter => sq [lit "[M:", .star (R .WSP), R .meter, lit "]"]
  -- ifield_part = { ["[P:"] ~ non_right_bracket+ ~ ["]"] }
  | .ifield_part => sq [lit "[P:", plus (R .non_right_bracket), lit "]"]
  -- ifield_tempo = { ["[Q:"] ~ WSP* ~ tempo ~ ["]"] }
  | .ifield_tempo => sq [lit "[Q:", .star (R .WSP), R .tempo, lit "]"]
  -- ifield_userdef = { ["[U:"] ~ non_right_bracket+ ~ ["]"] }
  | .ifield_userdef => sq [lit "[U:", plus (R .non_right_bracket), lit "]"]
  -- ifield_voice = { ["[V:"] ~ WSP* ~ voice ~ ["]"] }
  | .ifield_voice => sq [lit "[V:", .star (R .WSP), R .voice, lit "]"]
  -- pitch = { accidental? ~ basenote ~ octave? }
  | .pitch => sq [.opt (R .accidental), R .basenote, .opt (R .octave)]
  -- basenote = { ['A'..'G'] | ['a'..'g'] }
  | .basenote => ch [.rng 'A' 'G', .rng 'a' 'g']
  -- octave = { ["'"]+ | [","]+ }
  | .octave => ch [plus (.lit [apostC]), plus (lit ",")]
  -- accidental = { ["^^"] | ["^"] | ["__"] | ["_"] | ["="] }
  | .accidental => ch [lit "^^", lit "^", lit "__", lit "_", lit "="]
  -- note_length = { note_length_smaller | note_length_full | note_length_bigger |
  --                 note_length_slashes }
  | .note_length =>
      ch [R .note_length_smaller, R .note_length_full, R .note_length_bigger,
          R .note_length_slashes]
  -- note_length_bigger = { DIGITS }
  | .note_length_bigger => R .DIGITS
  -- note_length_smaller = { ["/"] ~ DIGITS }
  | .note_length_smaller => sq [lit "/", R .DIGITS]
  -- note_length_full = { DIGITS ~ ["/"] ~ DIGITS }
  | .note_length_full => sq [R .DIGITS, lit "/", R .DIGITS]
  -- note_length_slashes = { ["/"]+ }
  | .note_length_slashes => plus (lit "/")
  -- note_length_strict = { ( DIGITS ~ ["/"] ~ DIGITS ) | ["1"] }
  | .note_length_strict => ch [sq [R .DIGITS, lit "/", R .DIGITS], lit "1"]
  -- broken_rhythm = { stem ~ b_elem* ~ b_sep ~ b_sep? ~ b_sep? ~ b_elem* ~ stem }
  | .broken_rhythm =>
      sq [R .stem, .star (R .b_elem), R .b_sep, .opt (R .b_sep), .opt (R .b_sep),
          .star (R .b_elem), R .stem]
  -- b_sep = { (["<"] | [">"]) }
  | .b_sep => ch [lit "<", lit ">"]
  -- b_elem = { WSP | chord_or_text | gracing | grace_notes | slur_begin | slur_end }
  | .b_elem =>
      ch [R .WSP, R .chord_or_text, R .gracing, R .grace_notes, R .slur_begin, R .slur_end]
  -- rest = { ( ["x"] | ["y"] | ["z"] ) ~ note_length? }
  | .rest => sq [ch [lit "x", lit "y", lit "z"], .opt (R .note_length)]
  -- multi_measure_rest = { ["Z"] ~ ['0'..'9']* }
  | .multi_measure_rest => sq [lit "Z", .star (.rng '0' '9')]
  -- clef = { ( clef_spec | clef_middle | clef_transpose | clef_octave | clef_stafflines ) ~
  --          ( WSP+ ~ clef )? }
  | .clef =>
      sq [ch [R .clef_spec, R .clef_middle, R .clef_transpose, R .clef_octave,
              R .clef_stafflines],
          .opt (sq [plus (R .WSP), R .clef])]
  -- clef_spec = { ( ( ["clef="] ~ ( clef_note | clef_name ) ) | clef_name ) ~ clef_line? ~
  --               ( ["+8"] | ["-8"] )? ~ ( WSP+ ~ clef_middle )? }
  | .clef_spec =>
      sq [ch [sq [lit "clef=", ch [R .clef_note, R .clef_name]], R .clef_name],
          .opt (R .clef_line), .opt (ch [lit "+8", lit "-8"]),
          .opt (sq [plus (R .WSP), R .clef_middle])]
  -- clef_note = { ["G"] | ["C"] | ["F"] | ["P"] }
  | .clef_note => ch [lit "G", lit "C", lit "F", lit "P"]
  -- clef_name = { ["treble"] | ["alto"] | ["tenor"] | ["bass"] | ["perc"] | ["none"] }
  | .clef_name => ch [lit "treble", lit "alto", lit "tenor", lit "bass", lit "perc", lit "none"]
  -- clef_line = { ['1'..'5'] }
  | .clef_line => .rng '1' '5'
  -- clef_middle = { ["middle="] ~ basenote ~ octave? }
  | .clef_middle => sq [lit "middle=", R .basenote, .opt (R .octave)]
  -- clef_transpose = { ["transpose="] ~ ["-"]? ~ DIGITS }
  | .clef_transpose => sq [lit "transpose=", .opt (lit "-"), R .DIGITS]
  -- clef_octave = { ["octave="] ~ ["-"]? ~ DIGITS }
  | .clef_octave => sq [lit "octave=", .opt (lit "-"), R .DIGITS]
  -- clef_stafflines = { ["stafflines="] ~ DIGITS }
  | .clef_stafflines => sq [lit "stafflines=", R .DIGITS]
  -- backquote = { ["`"] }
  | .backquote => .lit [backqC]
  -- barline = { invisible_barline |
  --             ( [":"]* ~ ["["]? ~ ( ["."]? ~ ["|"] )+ ~ ( ["]"] | [":"]+ | nth_repeat_num )? ) |
  --             double_repeat_barline | dashed_barline }
  | .barline =>
      ch [R .invisible_barline,
          sq [.star (lit ":"), .opt (lit "["), plus (sq [.opt (lit "."), lit "|"]),
              .opt (ch [lit "]", plus (lit ":"), R .nth_repeat_num])],
          R .double_repeat_barline, R .dashed_barline]
  -- invisible_barline = { ["[|]"] | ["[]"] }
  | .invisible_barline => ch [lit "[|]", lit "[]"]
  -- double_repeat_barline = { ["::"] }
  | .double_repeat_barline => lit "::"
  -- dashed_barline = { [":"] }
  | .dashed_barline => lit ":"
  -- nth_repeat = { ["["] ~ ( nth_repeat_num | nth_repeat_text ) }
  | .nth_repeat => sq [lit "[", ch [R .nth_repeat_num, R .nth_repeat_text]]
  -- nth_repeat_num = { DIGITS ~ ( ( [","] | ["-"] ) ~ DIGITS )* }
  | .nth_repeat_num => sq [R .DIGITS, .star (sq [ch [lit ",", lit "-"], R .DIGITS])]
  -- nth_repeat_text = { ["\""] ~ non_quote* ~ ["\""] }
  | .nth_repeat_text => sq [lit "\"", .star (R .non_quote), lit "\""]
  -- end_nth_repeat = { ["]"] }
  | .end_nth_repeat => lit "]"
  -- tie = { ["-"] }
  | .tie => lit "-"
  -- slur_begin = { ["("] }
  | .slur_begin => lit "("
  -- slur_end = { [")"] }
  | .slur_end => lit ")"
  -- grace_notes = { ["{"] ~ acciaccatura? ~ grace_note_stem+ ~ ["}"] }
  | .grace_notes =>
      sq [.lit [lbraceC], .opt (R .acciaccatura), plus (R .grace_note_stem), .lit [rbraceC]]
  -- grace_note_stem = { grace_note | ( ["["] ~ grace_note ~ grace_note+ ~ ["]"] ) }
  | .grace_note_stem =>
      ch [R .grace_note, sq [lit "[", R .grace_note, plus (R .grace_note), lit "]"]]
  -- grace_note = { pitch ~ note_length? }
  | .grace_note => sq [R .pitch, .opt (R .note_length)]
  -- acciaccatura = { ["/"] }
  | .acciaccatura => lit "/"
  -- tuplet = { ["("] ~ DIGITS ~ ( [":"] ~ DIGITS? ~ [":"] ~ DIGITS? )? }
  | .tuplet =>
      sq [lit "(", R .DIGITS,
          .opt (sq [lit ":", .opt (R .DIGITS), lit ":", .opt (R .DIGITS)])]
  -- long_gracing = { ( ["!"] ~ ( gracing1 | gracing2 | gracing3 | gracing_nonstandard |
  --                    gracing4 ) ~ ["!"] ) | ( ["!"] ~ gracing_catchall ~ ["!"] ) }
  | .long_gracing =>
      ch [sq [lit "!",
              ch [R .gracing1, R .gracing2, R .gracing3, R .gracing_nonstandard, R .gracing4],
              lit "!"],
          sq [lit "!", R .gracing_catchall, lit "!"]]
  | .gracing1 =>
      ch [lit "<(", lit "<)", lit ">(", lit ">)", lit "D.C.", lit "D.S.", lit "accent",
          lit "arpeggio", lit "breath", lit "coda", lit "crescendo(", lit "crescendo)",
          lit "dacapo", lit "dacoda", lit "diminuendo("]
  | .gracing2 =>
      ch [lit "diminuendo)", lit "downbow", lit "emphasis", lit "fermata", lit "ffff",
          lit "fff", lit "ff", lit "fine", lit "invertedfermata", lit "invertedturnx",
          lit "invertedturn", lit "longphrase", lit "lowermordent"]
  | .gracing3 =>
      ch [lit "mediumphrase", lit "mf", lit "mordent", lit "mp", lit "open", lit "plus",
          lit "pppp", lit "ppp", lit "pp", lit "pralltriller", lit "roll", lit "segno",
          lit "sfz", lit "shortphrase", lit "slide", lit "snap"]
  | .gracing4 =>
      ch [lit "tenuto", lit "thumb", lit "trill(", lit "trill)", lit "trill", lit "turnx",
          lit "turn", lit "upbow", lit "uppermordent", lit "wedge", lit "+", .rng '0' '5',
          lit "<", lit ">", lit "f", lit "p"]
  -- gracing_nonstandard = { ["cresc"] | ["decresc"] | ["dimin"] | ["fp"] |
  --                         ( ["repeatbar"] ~ DIGITS ) }
  | .gracing_nonstandard =>
      ch [lit "cresc", lit "decresc", lit "dimin", lit "fp", sq [lit "repeatbar", R .DIGITS]]
  -- gracing_catchall = { ['"'..'~']+ }
  | .gracing_catchall => plus (.rng '"' '~')
  -- userdef_symbol = { ["~"] | ['H'..'Y'] | ['h'..'w'] }
  | .userdef_symbol => ch [lit "~", .rng 'H' 'Y', .rng 'h' 'w']
  -- stem = { ( ["["] ~ note ~ note+ ~ ["]"] ~ tie? ) | note | rest }
  | .stem =>
      ch [sq [lit "[", R .note, plus (R .note), lit "]", .opt (R .tie)], R .note, R .rest]
  -- chord = { basenote ~ chord_accidental? ~ chord_type? ~
  --           (["/"] ~ basenote ~ chord_accidental?)? ~ (!chord_newline ~ non_quote)* }
  | .chord =>
      sq [R .basenote, .opt (R .chord_accidental), .opt (R .chord_type),
          .opt (sq [lit "/", R .basenote, .opt (R .chord_accidental)]),
          .star (sq [.neg (R .chord_newline), R .non_quote])]
  -- chord_accidental = { ["#"] | ["b"] | ["="] | ["♯"] | ["♭"] | ["♮"] }
  | .chord_accidental => ch [lit "#", lit "b", lit "=", lit "♯", lit "♭", lit "♮"]
  -- chord_type = { (['A'..'Z'] | ['a'..'z'] | ['0'..'9']+ | ["-"])+ }
  | .chord_type => plus (ch [.rng 'A' 'Z', .rng 'a' 'z', plus (.rng '0' '9'), lit "-"])
  -- text_expression = { ( ( ["^"] | ["<"] | [">"] | ["_"] | ["@"] ) ~
  --                       (!chord_newline ~ non_quote)+ ) | bad_text_expression }
  | .text_expression =>
      ch [sq [ch [lit "^", lit "<", lit ">", lit "_", lit "@"],
              plus (sq [.neg (R .chord_newline), R .non_quote])],
          R .bad_text_expression]
  -- bad_text_expression = { (!chord_newline ~ non_quote)+ }
  | .bad_text_expression => plus (sq [.neg (R .chord_newline), R .non_quote])
  -- abc_eol = { line_continuation? ~ WSP* }
  | .abc_eol => sq [.opt (R .line_continuation), .star (R .WSP)]
  -- line_continuation = { ["\\"] }
  | .line_continuation => lit "\\"
  -- hard_line_break = { ["$"] | ["!"] }
  | .hard_line_break => ch [lit "$", lit "!"]
  -- voice = { (!([" "] | ["]"]) ~ any)+ ~
  --           ( WSP+ ~ (!([" "] | ["="] | ["]"]) ~ any)+ ~ ["="] ~
  --             ( ( ["\""] ~ non_quote* ~ ["\""] ) | (!([" "] | ["]"]) ~ any)+ ) )* }
  | .voice =>
      sq [plus (sq [.neg (ch [lit " ", lit "]"]), .anyC]),
          .star (sq [plus (R .WSP),
                     plus (sq [.neg (ch [lit " ", lit "=", lit "]"]), .anyC]),
                     lit "=",
                     ch [sq [lit "\"", .star (R .non_quote), lit "\""],
                         plus (sq [.neg (ch [lit " ", lit "]"]), .anyC])]])]
  -- rollback = { ["&"] }
  | .rollback => lit "&"
  -- reserved_char = { ["#"] | ["*"] | [";"] | ["?"] | ["@"] }
  | .reserved_char => ch [lit "#", lit "*", lit ";", lit "?", lit "@"]
  -- chord_newline = { ["\\n"] | [";"] }
  | .chord_newline => ch [lit "\\n", lit ";"]
  -- measure_repeat = { ["/"] ~ ["/"]? }
  | .measure_repeat => sq [lit "/", .opt (lit "/")]
  -- non_quote = { !["\""] ~ any }
  | .non_quote => sq [.neg (lit "\""), .anyC]
  -- non_right_bracket = { !["]"] ~ any }
  | .non_right_bracket => sq [.neg (lit "]"), .anyC]
  -- DIGITS = { ['0'..'9']+ }
  | .DIGITS => plus (.rng '0' '9')
  -- WSP = { ([" "] | ["\t"])+ }
  | .WSP => plus (ch [lit " ", lit "\t"])

/-- A token of the pest queue: a successful match of a named rule, recorded as
the rule plus the matched half-open span.  (Rust `Token<Rule> { rule, start,
end }`; `end` is spelled `stop` because `end` is a Lean keyword.) -/
structure Tok where
  rule : Rule
  start : Nat
  stop : Nat
deriving DecidableEq

/-- Result of running the matcher: success with the new position and the
emitted token list (in queue order), genuine match failure, or fuel
exhaustion. -/
inductive MRes where
  | ok (pos : Nat) (toks : List Tok)
  | fail
  | gas
deriving DecidableEq

/-- The PEG matcher: ordered choice takes the first successful alternative,
repetition is greedy with no re-matching on later failure, lookahead consumes
nothing and emits nothing, and every successful named-rule reference prepends
its own token to those of its body (the pest 0.4 preorder queue).  The fuel
argument only forces termination; `F` below always supplies enough. -/
def matchE (input : List Char) : Nat → Expr → Nat → MRes
  | 0, _, _ => .gas
  | fuel+1, e, p =>
    match e with
    | .lit cs => if cs.isPrefixOf (input.drop p) then .ok (p + cs.length) [] else .fail
    | .rng lo hi =>
      match input[p]? with
      | some c => if lo ≤ c ∧ c ≤ hi then .ok (p + 1) [] else .fail
      | none => .fail
    | .anyC =>
      match input[p]? with
      | some _ => .ok (p + 1) []
      | none => .fail
    | .eoi => if p = input.length then .ok p [] else .fail
    | .seq a b =>
      match matchE input fuel a p with
      | .ok p1 t1 =>
        match matchE input fuel b p1 with
        | .ok p2 t2 => .ok p2 (t1 ++ t2)
        | .fail => .fail
        | .gas => .gas
      | r => r
    | .cho a b =>
      match matchE input fuel a p with
      | .fail => matchE input fuel b p
      | r => r
    | .opt a =>
      match matchE input fuel a p with
      | .fail => .ok p []
      | r => r
    | .star a =>
      match matchE input fuel a p with
      | .fail => .ok p []
      | .gas => .gas
      | .ok p1 t1 =>
        if p1 = p then .ok p []
        else
          match matchE input fuel (.star a) p1 with
          | .ok p2 t2 => .ok p2 (t1 ++ t2)
          | .fail => .ok p1 t1
          | .gas => .gas
    | .neg a =>
      match matchE input fuel a p with
      | .ok _ _ => .fail
      | .fail => .ok p []
      | .gas => .gas
    | .refR r =>
      match matchE input fuel (grammar r) p with
      | .ok p1 t1 => .ok p1 (⟨r, p, p1⟩ :: t1)
      | r2 => r2

/-- Fuel supplied to the matcher for a given input: generous linear bound on
the recursion depth of any match of this grammar. -/
def parseFuel (input : List Char) : Nat := 64 * input.length + 128

/-- Run the parser exactly as the Rust callers do: match `music_code_line`
(which ends in `eoi`) against the whole input. -/
def parse (input : List Char) : MRes :=
  matchE input (parseFuel input) (.refR .music_code_line) 0

/-! ## The canonicalization visitor (`src/visitors.rs`) -/

/-- The slice of the input denoted by the half-open span `[s, e)`
(Rust `&input[s..e]`). -/
def sliceTxt (input : List Char) (s e : Nat) : List Char :=
  (input.drop s).take (e - s)

/-- Rust `RString`: either a borrowed span of the input (`RSlice { start, end }`)
or an owned string. -/
inductive RString where
  | slice (start stop : Nat)
  | str (s : List Char)
deriving DecidableEq

/-- Rust `RString::to_string`: materialize the text. -/
def RString.toStr (r : RString) (input : List Char) : List Char :=
  match r with
  | .slice s e => sliceTxt input s e
  | .str s => s

/-- Rust `RString::add`: concatenation with the free merge of two adjacent
borrowed spans; any other combination materializes an owned string. -/
def RString.add (a b : RString) (input : List Char) : RString :=
  match a, b with
  | .slice ls le, .slice rs re =>
    if le = rs then .slice ls re
    else .str (sliceTxt input ls le ++ sliceTxt input rs re)
  | .slice ls le, .str r => .str (sliceTxt input ls le ++ r)
  | .str l, .slice rs re => .str (l ++ sliceTxt input rs re)
  | .str l, .str r => .str (l ++ r)

/-- Indexing into the token queue (Rust `q[i]`; the Rust accesses are always
in bounds, the default is never reached on parser-produced queues). -/
def tk (q : List Tok) (i : Nat) : Tok :=
  q.getD i ⟨.WSP, 0, 0⟩

/-- Whitespace predicate of Rust `str::trim` (`char::is_whitespace`),
restricted to the characters this grammar can put in a trimmed string. -/
def isWsChar (c : Char) : Bool :=
  c = ' ' ∨ c = '\t' ∨ c = '\n' ∨ c = '\r'

/-- Leading-whitespace trim. -/
def trimLeft (s : List Char) : List Char := s.dropWhile isWsChar

/-- Trailing-whitespace trim. -/
def trimRight (s : List Char) : List Char := (s.reverse.dropWhile isWsChar).reverse

/-- Rust `str::trim`: strip whitespace from both ends. -/
def rustTrim (s : List Char) : List Char := trimRight (trimLeft s)

mutual

/-- Rust `_gather_children(i, q, qlen, input)`: recursively gather the
children of token `i` (every following token whose `start` lies before
token `i`'s `end`), interleaved with the plain text between them, and
return the gathered `RString` plus the index just past the gathered
subtree.  The fuel argument only forces termination (`visitFuel` below is
always sufficient). -/
def gather_children (fuel : Nat) (i : Nat) (q : List Tok) (input : List Char) :
    RString × Nat :=
  match fuel with
  | 0 => (.str [], q.length)
  | f+1 =>
    let childI := i + 1
    if childI < q.length ∧ (tk q childI).start < (tk q i).stop then
      -- there are children to recurse into
      if (tk q i).start < (tk q childI).start then
        -- gather plain text before first child, then the first child
        let r0 : RString := .slice (tk q i).start (tk q childI).start
        let res := recurse_children f childI q input
        let rstr := r0.add res.1 input
        gather_loop f rstr (tk q childI).stop res.2 i q input
      else
        let res := recurse_children f childI q input
        gather_loop f res.1 (tk q childI).stop res.2 i q input
    else
      -- no children, just return the text of this match
      (.slice (tk q i).start (tk q i).stop, i + 1)

/-- The `while` loop of `_gather_children`: `racc` is the gathered text so
far, `textOffset` the end of the last gathered piece, `childI` the candidate
next child.  On exit, append the plain text after the last child, if any. -/
def gather_loop (fuel : Nat) (racc : RString) (textOffset childI i : Nat)
    (q : List Tok) (input : List Char) : RString × Nat :=
  match fuel with
  | 0 => (racc, q.length)
  | f+1 =>
    if childI < q.length ∧ (tk q childI).start < (tk q i).stop then
      -- gather plain text before child, if any, then the child
      let r1 := if textOffset < (tk q childI).start then
                  racc.add (.slice textOffset (tk q childI).start) input
                else racc
      let res := recurse_children f childI q input
      gather_loop f (r1.add res.1 input) (tk q childI).stop res.2 i q input
    else
      -- gather plain text after last child, if any
      let r2 := if textOffset < (tk q i).stop then
                  racc.add (.slice textOffset (tk q i).stop) input
                else racc
      (r2, childI)
termination_by structural fuel

/-- Rust `_recurse_children(i, q, qlen, input)`: the per-rule rewrite
dispatch of the canonicalization visitor. -/
def recurse_children (fuel : Nat) (i : Nat) (q : List Tok) (input : List Char) :
    RString × Nat :=
  match fuel with
  | 0 => (.str [], q.length)
  | f+1 =>
    match (tk q i).rule with
    | .abc_eol =>
      -- trim trailing whitespace
      let res := gather_children f i q input
      (.str (rustTrim (res.1.toStr input)), res.2)
    | .chord_newline =>
      -- canonicize to ';'
      (.str [';'], i + 1)
    | .WSP =>
      -- squash any whitespace to a single space
      if sliceTxt input (tk q i).start (tk q i).stop = [' '] then
        (.slice (tk q i).start (tk q i).stop, i + 1)
      else
        (.str [' '], i + 1)
    | _ =>
      -- default rule, recursively gather children, if any
      gather_children f i q input
termination_by structural fuel

end

/-- Fuel supplied to the visitor: sufficient for any well-nested queue
(shown in the sufficiency lemmas below). -/
def visitFuel (q : List Tok) : Nat := 2 * q.length + 4

/-- The top-level loop of Rust `visit_parse_tree`: walk the queue from the
front, appending the canonical text of each top-level token. -/
def visit_loop (fuel : Nat) (i : Nat) (q : List Tok) (input : List Char)
    (acc : List Char) : List Char :=
  match fuel with
  | 0 => acc
  | f+1 =>
    if i < q.length then
      let res := recurse_children (visitFuel q) i q input
      visit_loop f res.2 q input (acc ++ res.1.toStr input)
    else acc

/-- Rust `visit_parse_tree`: rebuild the canonical text from the queue. -/
def visit_parse_tree (q : List Tok) (input : List Char) : List Char :=
  visit_loop (q.length + 1) 0 q input []

/-- Rust `canonify_abc_visitor` composed with the parse step: the single
entry point `parse_and_canonicalize` of the core.  `none` models the
`SyntaxError` outcome. -/
def canonicalize (input : List Char) : Option (List Char) :=
  match parse input with
  | .ok _ toks => some (visit_parse_tree toks input)
  | _ => none

/-! ## Structure of parser-produced token traces

The matcher is shown (in `matchE_sound` below) to produce traces with the
preorder-forest structure `Forest`: each token is immediately followed by the
tokens of its descendants, whose spans nest inside its own, followed by its
later siblings, whose spans start at or after its end.  `nodeFact` records,
at each node, the extra facts about the three rules the visitor rewrites,
which the matcher also guarantees. -/

/-- Facts guaranteed by the matcher about the body of a successfully matched
rule: a `WSP` token covers a nonempty run of spaces/tabs and has no
descendant tokens; a `chord_newline` token covers exactly the two-character
newline marker or a semicolon and has no descendant tokens; an `abc_eol`
token covers an optional backslash followed by spaces/tabs. -/
def nodeFact (input : List Char) (r : Rule) (s e : Nat) (kids : List Tok) : Prop :=
  match r with
  | .WSP => kids = [] ∧ s < e ∧ ∀ c ∈ sliceTxt input s e, c = ' ' ∨ c = '\t'
  | .chord_newline =>
      kids = [] ∧ (sliceTxt input s e = ['\\', 'n'] ∨ sliceTxt input s e = [';'])
  | .abc_eol =>
      ∃ cont w, (cont = [] ∨ cont = ['\\']) ∧ (∀ c ∈ w, c = ' ' ∨ c = '\t') ∧
        sliceTxt input s e = cont ++ w
  | _ => True

/-- Preorder-forest structure of a token list over the span `[lo, hi]`:
either empty, or a root token `⟨r, s, e⟩` followed first by the trace of its
descendants (spanning inside `[s, e]`) and then by the trace of its later
siblings (spanning inside `[e, hi]`). -/
inductive Forest (input : List Char) : Nat → Nat → List Tok → Prop
  | nil {lo hi : Nat} (h : lo ≤ hi) : Forest input lo hi []
  | cons {lo hi s e : Nat} {r : Rule} {ts1 ts2 : List Tok}
      (h1 : lo ≤ s) (h2 : s ≤ e) (h3 : e ≤ hi)
      (hf : nodeFact input r s e ts1)
      (hts1 : Forest input s e ts1) (hts2 : Forest input e hi ts2) :
      Forest input lo hi (⟨r, s, e⟩ :: ts1 ++ ts2)

/-- The no-partial-overlap ordering between two trace positions: the later
token starts no earlier, and is either disjoint-and-after or fully nested. -/
def TokOrd (A B : Tok) : Prop :=
  A.start ≤ B.start ∧ (A.stop ≤ B.start ∨ B.stop ≤ A.stop)

/-- The rewrite relation implemented by the canonicalization visitor, read
off the three rewriting arms of `_recurse_children`: the output is obtained
from the input by copying characters unchanged and in order, except that a
whitespace run may become a single space (`squash`), a whitespace run may be
dropped where the line-ending rule trims (`trim`), and an internal separator
marker (`\n` or `;`) becomes `;` (`mark1`/`mark2`). -/
inductive CanonDelta : List Char → List Char → Prop
  | nil : CanonDelta [] []
  | copy {xs ys : List Char} (c : Char) (h : CanonDelta xs ys) :
      CanonDelta (c :: xs) (c :: ys)
  | squash {xs ys : List Char} (run : List Char) (hne : run ≠ [])
      (hws : ∀ c ∈ run, c = ' ' ∨ c = '\t') (h : CanonDelta xs ys) :
      CanonDelta (run ++ xs) (' ' :: ys)
  | trim {xs ys : List Char} (run : List Char) (hne : run ≠ [])
      (hws : ∀ c ∈ run, c = ' ' ∨ c = '\t') (h : CanonDelta xs ys) :
      CanonDelta (run ++ xs) ys
  | mark1 {xs ys : List Char} (h : CanonDelta xs ys) :
      CanonDelta ('\\' :: 'n' :: xs) (';' :: ys)
  | mark2 {xs ys : List Char} (h : CanonDelta xs ys) :
      CanonDelta (';' :: xs) (';' :: ys)

/-- Characters that can never take part in any rewrite of the visitor:
everything except whitespace and the characters of the separator-marker
spellings. -/
def plainChar (c : Char) : Bool :=
  ¬(c = ' ' ∨ c = '\t' ∨ c = '\\' ∨ c = 'n' ∨ c = ';')

/-- Validity of a canonical fragment: a borrowed span is well-formed. -/
def RString.Ok : RString → Prop
  | .slice s e => s ≤ e
  | .str _ => True

/-- ASCII digit, as matched by the `DIGITS` rule. -/
def isDigitC (c : Char) : Prop := '0' ≤ c ∧ c ≤ '9'

/-- Note letter, as matched by the `basenote` rule. -/
def isBaseC (c : Char) : Prop := ('A' ≤ c ∧ c ≤ 'G') ∨ ('a' ≤ c ∧ c ≤ 'g')

/-- The first character of `l`, if any, does not satisfy `P`. -/
def headNot (P : Char → Prop) (l : List Char) : Prop :=
  ∀ c, l.head? = some c → ¬ P c

/-! ## Basic lemmas about trimming -/

theorem dropWhile_append_of_all {p : Char → Bool} {l1 l2 : List Char}
    (h : ∀ c ∈ l1, p c = true) :
    (l1 ++ l2).dropWhile p = l2.dropWhile p := by
  induction l1 with
  | nil => rfl
  | cons c l ih =>
    have hc : p c = true := h c (by simp)
    simp only [List.cons_append, List.dropWhile_cons, hc, if_true]
    exact ih fun d hd => h d (by simp [hd])

theorem trimRight_append_ws {xs w : List Char} (h : ∀ c ∈ w, isWsChar c = true) :
    trimRight (xs ++ w) = trimRight xs := by
  unfold trimRight
  rw [List.reverse_append, dropWhile_append_of_all]
  intro c hc
  exact h c (List.mem_reverse.mp hc)

theorem trimLeft_all_ws {w : List Char} (h : ∀ c ∈ w, isWsChar c = true) :
    trimLeft w = [] := by
  induction w with
  | nil => rfl
  | cons c l ih =>
    have hc : isWsChar c = true := h c (by simp)
    simp only [trimLeft, List.dropWhile_cons, hc, if_true]
    exact ih fun d hd => h d (by simp [hd])

theorem trimRight_all_ws {w : List Char} (h : ∀ c ∈ w, isWsChar c = true) :
    trimRight w = [] := by
  have := @trimRight_append_ws [] w h
  simpa [trimRight] using this

theorem wsOrTab_isWsChar {w : List Char} (h : ∀ c ∈ w, c = ' ' ∨ c = '\t') :
    ∀ c ∈ w, isWsChar c = true := by
  intro c hc
  rcases h c hc with h' | h' <;> simp [isWsChar, h']

/-- The `str::trim` of a string that is an optional backslash followed by
whitespace equals its trailing trim, and both keep exactly the backslash. -/
theorem rustTrim_eol_shape {cont w : List Char}
    (hcont : cont = [] ∨ cont = ['\\']) (hw : ∀ c ∈ w, c = ' ' ∨ c = '\t') :
    rustTrim (cont ++ w) = trimRight (cont ++ w) ∧ trimRight (cont ++ w) = cont := by
  have hw' := wsOrTab_isWsChar hw
  have htr : trimRight (cont ++ w) = trimRight cont := trimRight_append_ws hw'
  rcases hcont with h | h
  · subst h
    refine ⟨?_, by simpa [trimRight] using htr⟩
    simp only [List.nil_append] at htr ⊢
    rw [rustTrim, trimLeft_all_ws hw']
    simpa [trimRight] using htr
  · subst h
    have hL : trimLeft (['\\'] ++ w) = ['\\'] ++ w := by
      simp [trimLeft, List.dropWhile_cons, isWsChar]
    refine ⟨by rw [rustTrim, hL], ?_⟩
    rw [htr]
    decide

/-! ## Lemmas about slices -/

theorem sliceTxt_self (input : List Char) (p : Nat) : sliceTxt input p p = [] := by
  simp [sliceTxt]

theorem sliceTxt_append {input : List Char} {p m n : Nat} (h1 : p ≤ m) (h2 : m ≤ n) :
    sliceTxt input p n = sliceTxt input p m ++ sliceTxt input m n := by
  unfold sliceTxt
  have hmn : n - p = (m - p) + (n - m) := by omega
  rw [hmn, List.take_add, List.drop_drop]
  have hpm : p + (m - p) = m := by omega
  rw [hpm]

theorem sliceTxt_all (input : List Char) :
    sliceTxt input 0 input.length = input := by
  simp [sliceTxt]

/-! ## Lemmas about the forest structure -/

theorem Forest.le {input : List Char} {lo hi : Nat} {ts : List Tok}
    (h : Forest input lo hi ts) : lo ≤ hi := by
  induction h with
  | nil h => exact h
  | cons h1 h2 h3 _ _ _ ih1 ih2 => omega

theorem Forest.weaken {input : List Char} {lo hi lo' hi' : Nat} {ts : List Tok}
    (h : Forest input lo hi ts) (hlo : lo' ≤ lo) (hhi : hi ≤ hi') :
    Forest input lo' hi' ts := by
  induction h generalizing lo' hi' with
  | nil h => exact .nil (by omega)
  | cons h1 h2 h3 hf hts1 hts2 ih1 ih2 =>
    exact .cons (by omega) h2 (by omega) hf hts1 (ih2 (le_refl _) hhi)

theorem Forest.append {input : List Char} {lo m hi : Nat} {t1 t2 : List Tok}
    (h1 : Forest input lo m t1) (h2 : Forest input m hi t2) :
    Forest input lo hi (t1 ++ t2) := by
  induction h1 with
  | nil h => exact h2.weaken h (le_refl _)
  | cons ha hb hc hf hts1 hts2 ih1 ih2 =>
    rw [List.append_assoc]
    exact .cons ha hb (le_trans hc h2.le) hf hts1 (ih2 h2)

theorem Forest.bounds {input : List Char} {lo hi : Nat} {ts : List Tok}
    (h : Forest input lo hi ts) :
    ∀ t ∈ ts, lo ≤ t.start ∧ t.start ≤ t.stop ∧ t.stop ≤ hi := by
  induction h with
  | nil _ => intro t ht; cases ht
  | cons h1 h2 h3 hf hts1 hts2 ih1 ih2 =>
    intro t ht
    rcases List.mem_cons.mp ht with h | h
    · subst h; exact ⟨h1, h2, h3⟩
    · rcases List.mem_append.mp h with h | h
      · have := ih1 t h
        exact ⟨by omega, this.2.1, by omega⟩
      · have := ih2 t h
        exact ⟨by omega, this.2.1, this.2.2⟩

theorem Forest.pairwise {input : List Char} {lo hi : Nat} {ts : List Tok}
    (h : Forest input lo hi ts) : ts.Pairwise TokOrd := by
  induction h with
  | nil _ => exact .nil
  | cons h1 h2 h3 hf hts1 hts2 ih1 ih2 =>
    have hb1 := hts1.bounds
    have hb2 := hts2.bounds
    refine List.Pairwise.cons ?_ (List.pairwise_append.mpr ⟨ih1, ih2, ?_⟩)
    · intro t ht
      rcases List.mem_append.mp ht with hmem | hmem
      · have hb := hb1 t hmem
        exact ⟨hb.1, Or.inr hb.2.2⟩
      · have hb := hb2 t hmem
        refine ⟨?_, Or.inl ?_⟩ <;> dsimp only <;> omega
    · intro a hma b hmb
      have hba := hb1 a hma
      have hbb := hb2 b hmb
      exact ⟨by omega, Or.inl (by omega)⟩

/-! ## Primitive facts about the matcher -/

theorem matchE_lit_ok {input : List Char} {f p n : Nat} {cs : List Char} {toks : List Tok}
    (h : matchE input f (.lit cs) p = .ok n toks) :
    toks = [] ∧ n = p + cs.length ∧ sliceTxt input p n = cs ∧
      (p ≤ input.length → n ≤ input.length) := by
  cases f with
  | zero => simp [matchE] at h
  | succ f =>
    simp only [matchE] at h
    split at h
    case isTrue hpre =>
      obtain ⟨t, ht⟩ := List.isPrefixOf_iff_prefix.mp hpre
      injection h with hn htk
      subst hn
      subst htk
      refine ⟨rfl, rfl, ?_, ?_⟩
      · unfold sliceTxt
        rw [Nat.add_sub_cancel_left, ← ht]
        exact List.take_left cs t
      · intro hp
        have hlen : cs.length + t.length = input.length - p := by
          have := congrArg List.length ht
          simpa using this
        omega
    case isFalse _ => cases h

theorem matchE_rng_ok {input : List Char} {f p n : Nat} {lo hi : Char} {toks : List Tok}
    (h : matchE input f (.rng lo hi) p = .ok n toks) :
    toks = [] ∧ n = p + 1 ∧ p < input.length := by
  cases f with
  | zero => simp [matchE] at h
  | succ f =>
    simp only [matchE] at h
    cases hc : input[p]? with
    | none => simp only [hc] at h; cases h
    | some c =>
      simp only [hc] at h
      have hlt : p < input.length := by
        by_contra hge
        rw [List.getElem?_eq_none (by omega)] at hc
        cases hc
      by_cases hcc : lo ≤ c ∧ c ≤ hi
      · rw [if_pos hcc] at h
        injection h with hn htk
        subst hn
        subst htk
        exact ⟨rfl, rfl, hlt⟩
      · rw [if_neg hcc] at h
        cases h

theorem matchE_any_ok {input : List Char} {f p n : Nat} {toks : List Tok}
    (h : matchE input f .anyC p = .ok n toks) :
    toks = [] ∧ n = p + 1 ∧ p < input.length := by
  cases f with
  | zero => simp [matchE] at h
  | succ f =>
    simp only [matchE] at h
    cases hc : input[p]? with
    | none => simp only [hc] at h; cases h
    | some c =>
      simp only [hc] at h
      injection h with hn htk
      subst hn
      subst htk
      have hlt : p < input.length := by
        by_contra hge
        rw [List.getElem?_eq_none (by omega)] at hc
        cases hc
      exact ⟨rfl, rfl, hlt⟩

theorem matchE_eoi_ok {input : List Char} {f p n : Nat} {toks : List Tok}
    (h : matchE input f .eoi p = .ok n toks) :
    toks = [] ∧ n = p ∧ p = input.length := by
  cases f with
  | zero => simp [matchE] at h
  | succ f =>
    simp only [matchE] at h
    split at h
    case isTrue hp =>
      injection h with hn htk
      subst hn
      subst htk
      exact ⟨rfl, rfl, hp⟩
    case isFalse _ => cases h

/-! ## Body facts for the three rewritten rules -/

theorem ws_alt_ok {input : List Char} {f p n : Nat} {toks : List Tok}
    (h : matchE input f (.cho (.lit [' ']) (.lit ['\t'])) p = .ok n toks)
    (hp : p ≤ input.length) :
    toks = [] ∧ n = p + 1 ∧ n ≤ input.length ∧
      ∀ c ∈ sliceTxt input p n, c = ' ' ∨ c = '\t' := by
  cases f with
  | zero => simp [matchE] at h
  | succ f =>
    simp only [matchE] at h
    cases ha : matchE input f (.lit [' ']) p with
    | ok p1 t1 =>
      simp only [ha] at h
      injection h with hn htk
      subst hn
      subst htk
      obtain ⟨ht, hn, hs, hl⟩ := matchE_lit_ok ha
      subst ht
      subst hn
      refine ⟨rfl, by simp, by simpa using hl hp, ?_⟩
      rw [hs]
      intro c hc
      left
      simpa using hc
    | fail =>
      simp only [ha] at h
      obtain ⟨ht, hn, hs, hl⟩ := matchE_lit_ok h
      subst ht
      subst hn
      refine ⟨rfl, by simp, by simpa using hl hp, ?_⟩
      rw [hs]
      intro c hc
      right
      simpa using hc
    | gas => simp only [ha] at h; cases h

theorem star_ws_alt {input : List Char} :
    ∀ (f p n : Nat) (toks : List Tok), p ≤ input.length →
      matchE input f (.star (.cho (.lit [' ']) (.lit ['\t']))) p = .ok n toks →
      toks = [] ∧ p ≤ n ∧ n ≤ input.length ∧
        ∀ c ∈ sliceTxt input p n, c = ' ' ∨ c = '\t' := by
  intro f
  induction f with
  | zero => intro p n toks hp h; simp [matchE] at h
  | succ f ih =>
    intro p n toks hp h
    simp only [matchE] at h
    cases ha : matchE input f (.cho (.lit [' ']) (.lit ['\t'])) p with
    | fail =>
      simp only [ha] at h
      injection h with hn htk
      subst hn
      subst htk
      exact ⟨rfl, le_refl _, hp, by simp [sliceTxt_self]⟩
    | gas => simp only [ha] at h; cases h
    | ok p1 t1 =>
      simp only [ha] at h
      obtain ⟨ht1, hp1, hlen1, hws1⟩ := ws_alt_ok ha hp
      rw [if_neg (by omega)] at h
      cases hs : matchE input f (.star (.cho (.lit [' ']) (.lit ['\t']))) p1 with
      | ok p2 t2 =>
        simp only [hs] at h
        injection h with hn htk
        subst hn
        subst htk
        obtain ⟨ht2, hp2, hlen2, hws2⟩ := ih p1 p2 t2 hlen1 hs
        refine ⟨by simp [ht1, ht2], by omega, hlen2, ?_⟩
        rw [sliceTxt_append (show p ≤ p1 by omega) hp2]
        intro c hc
        rcases List.mem_append.mp hc with hm | hm
        · exact hws1 c hm
        · exact hws2 c hm
      | fail =>
        simp only [hs] at h
        injection h with hn htk
        subst hn
        subst htk
        exact ⟨ht1, by omega, hlen1, hws1⟩
      | gas => simp only [hs] at h; cases h

theorem wsp_body {input : List Char} {f p n : Nat} {toks : List Tok}
    (h : matchE input f (grammar .WSP) p = .ok n toks) (hp : p ≤ input.length) :
    toks = [] ∧ p < n ∧ n ≤ input.length ∧
      ∀ c ∈ sliceTxt input p n, c = ' ' ∨ c = '\t' := by
  cases f with
  | zero => simp [matchE] at h
  | succ f =>
    have hg : grammar Rule.WSP =
        .seq (.cho (.lit [' ']) (.lit ['\t']))
          (.star (.cho (.lit [' ']) (.lit ['\t']))) := by decide
    rw [hg] at h
    simp only [matchE] at h
    cases ha : matchE input f (.cho (.lit [' ']) (.lit ['\t'])) p with
    | ok p1 t1 =>
      simp only [ha] at h
      obtain ⟨ht1, hp1, hlen1, hws1⟩ := ws_alt_ok ha hp
      cases hs : matchE input f (.star (.cho (.lit [' ']) (.lit ['\t']))) p1 with
      | ok p2 t2 =>
        simp only [hs] at h
        injection h with hn htk
        subst hn
        subst htk
        obtain ⟨ht2, hp2, hlen2, hws2⟩ := star_ws_alt f p1 p2 t2 hlen1 hs
        refine ⟨by simp [ht1, ht2], by omega, hlen2, ?_⟩
        rw [sliceTxt_append (show p ≤ p1 by omega) hp2]
        intro c hc
        rcases List.mem_append.mp hc with hm | hm
        · exact hws1 c hm
        · exact hws2 c hm
      | fail => simp only [hs] at h; cases h
      | gas => simp only [hs] at h; cases h
    | fail => simp only [ha] at h; cases h
    | gas => simp only [ha] at h; cases h

theorem cn_body {input : List Char} {f p n : Nat} {toks : List Tok}
    (h : matchE input f (grammar .chord_newline) p = .ok n toks) :
    toks = [] ∧
      (sliceTxt input p n = ['\\', 'n'] ∨ sliceTxt input p n = [';']) := by
  cases f with
  | zero => simp [matchE] at h
  | succ f =>
    have hg : grammar Rule.chord_newline =
        .cho (.lit ['\\', 'n']) (.lit [';']) := by decide
    rw [hg] at h
    simp only [matchE] at h
    cases ha : matchE input f (.lit ['\\', 'n']) p with
    | ok p1 t1 =>
      simp only [ha] at h
      injection h with hn htk
      subst hn
      subst htk
      obtain ⟨ht, hn, hs, _⟩ := matchE_lit_ok ha
      subst ht
      exact ⟨rfl, Or.inl hs⟩
    | fail =>
      simp only [ha] at h
      obtain ⟨ht, hn, hs, _⟩ := matchE_lit_ok h
      subst ht
      exact ⟨rfl, Or.inr hs⟩
    | gas => simp only [ha] at h; cases h

theorem star_refWSP {input : List Char} :
    ∀ (f p n : Nat) (toks : List Tok), p ≤ input.length →
      matchE input f (.star (.refR .WSP)) p = .ok n toks →
      p ≤ n ∧ n ≤ input.length ∧ ∀ c ∈ sliceTxt input p n, c = ' ' ∨ c = '\t' := by
  intro f
  induction f with
  | zero => intro p n toks hp h; simp [matchE] at h
  | succ f ih =>
    intro p n toks hp h
    simp only [matchE] at h
    cases ha : matchE input f (.refR .WSP) p with
    | fail =>
      simp only [ha] at h
      injection h with hn htk
      subst hn
      exact ⟨le_refl _, hp, by simp [sliceTxt_self]⟩
    | gas => simp only [ha] at h; cases h
    | ok p1 t1 =>
      simp only [ha] at h
      have hws : p < p1 ∧ p1 ≤ input.length ∧
          ∀ c ∈ sliceTxt input p p1, c = ' ' ∨ c = '\t' := by
        cases f with
        | zero => simp [matchE] at ha
        | succ f' =>
          simp only [matchE] at ha
          cases hb : matchE input f' (grammar .WSP) p with
          | ok p2 t2 =>
            simp only [hb] at ha
            injection ha with hn htk
            subst hn
            obtain ⟨_, hlt, hlen, hwsb⟩ := wsp_body hb hp
            exact ⟨hlt, hlen, hwsb⟩
          | fail => simp only [hb] at ha; cases ha
          | gas => simp only [hb] at ha; cases ha
      obtain ⟨hlt, hlen1, hws1⟩ := hws
      rw [if_neg (by omega)] at h
      cases hs : matchE input f (.star (.refR .WSP)) p1 with
      | ok p2 t2 =>
        simp only [hs] at h
        injection h with hn htk
        subst hn
        obtain ⟨hp2, hlen2, hws2⟩ := ih p1 p2 t2 hlen1 hs
        refine ⟨by omega, hlen2, ?_⟩
        rw [sliceTxt_append (show p ≤ p1 by omega) hp2]
        intro c hc
        rcases List.mem_append.mp hc with hm | hm
        · exact hws1 c hm
        · exact hws2 c hm
      | fail =>
        simp only [hs] at h
        injection h with hn htk
        subst hn
        exact ⟨by omega, hlen1, hws1⟩
      | gas => simp only [hs] at h; cases h

theorem lc_opt_ok {input : List Char} {f p m : Nat} {t1 : List Tok}
    (h : matchE input f (.opt (.refR .line_continuation)) p = .ok m t1)
    (hp : p ≤ input.length) :
    m = p ∨ (m = p + 1 ∧ m ≤ input.length ∧ sliceTxt input p m = ['\\']) := by
  cases f with
  | zero => simp [matchE] at h
  | succ f =>
    simp only [matchE] at h
    cases ha : matchE input f (.refR .line_continuation) p with
    | fail =>
      simp only [ha] at h
      injection h with hn htk
      omega
    | gas => simp only [ha] at h; cases h
    | ok p1 tt =>
      simp only [ha] at h
      injection h with hn htk
      subst hn
      cases f with
      | zero => simp [matchE] at ha
      | succ f' =>
        simp only [matchE] at ha
        cases hb : matchE input f' (grammar .line_continuation) p with
        | ok p2 t2 =>
          simp only [hb] at ha
          injection ha with hn2 htk2
          subst hn2
          have hg : grammar Rule.line_continuation = Expr.lit ['\\'] := by decide
          rw [hg] at hb
          obtain ⟨_, hn, hs, hl⟩ := matchE_lit_ok hb
          subst hn
          refine Or.inr ⟨by simp, by simpa using hl hp, by simpa using hs⟩
        | fail => simp only [hb] at ha; cases ha
        | gas => simp only [hb] at ha; cases ha

theorem eol_body {input : List Char} {f p n : Nat} {toks : List Tok}
    (h : matchE input f (grammar .abc_eol) p = .ok n toks) (hp : p ≤ input.length) :
    ∃ cont w, (cont = [] ∨ cont = ['\\']) ∧ (∀ c ∈ w, c = ' ' ∨ c = '\t') ∧
      sliceTxt input p n = cont ++ w := by
  cases f with
  | zero => simp [matchE] at h
  | succ f =>
    have hg : grammar Rule.abc_eol =
        .seq (.opt (.refR .line_continuation)) (.star (.refR .WSP)) := by decide
    rw [hg] at h
    simp only [matchE] at h
    cases ha : matchE input f (.opt (.refR .line_continuation)) p with
    | ok m t1 =>
      simp only [ha] at h
      cases hs : matchE input f (.star (.refR .WSP)) m with
      | ok p2 t2 =>
        simp only [hs] at h
        injection h with hn htk
        subst hn
        rcases lc_opt_ok ha hp with hm | ⟨hm, hmlen, hslice⟩
        · subst hm
          obtain ⟨hmn, hlen2, hws⟩ := star_refWSP f m p2 t2 hp hs
          exact ⟨[], sliceTxt input m p2, Or.inl rfl, hws, by simp⟩
        · obtain ⟨hmn, hlen2, hws⟩ := star_refWSP f m p2 t2 hmlen hs
          refine ⟨['\\'], sliceTxt input m p2, Or.inr rfl, hws, ?_⟩
          rw [sliceTxt_append (show p ≤ m by omega) hmn, hslice]
      | fail => simp only [hs] at h; cases h
      | gas => simp only [hs] at h; cases h
    | fail => simp only [ha] at h; cases h
    | gas => simp only [ha] at h; cases h

/-- The matcher guarantees `nodeFact` for the body of every successfully
matched rule. -/
theorem nodeFact_of_body {input : List Char} {f p n : Nat} {r : Rule} {toks : List Tok}
    (hp : p ≤ input.length)
    (hb : matchE input f (grammar r) p = .ok n toks) :
    nodeFact input r p n toks := by
  cases r
  case WSP =>
    obtain ⟨ht, hlt, _, hws⟩ := wsp_body hb hp
    exact ⟨ht, hlt, hws⟩
  case chord_newline =>
    obtain ⟨ht, hs⟩ := cn_body hb
    exact ⟨ht, hs⟩
  case abc_eol =>
    exact eol_body hb hp
  all_goals trivial

/-! ## Soundness of the matcher: every trace is a preorder forest -/

theorem matchE_sound {input : List Char} :
    ∀ (f : Nat) (e : Expr) (p n : Nat) (toks : List Tok),
      p ≤ input.length → matchE input f e p = .ok n toks →
      p ≤ n ∧ n ≤ input.length ∧ Forest input p n toks := by
  intro f
  induction f with
  | zero => intro e p n toks _ h; simp [matchE] at h
  | succ f ih =>
    intro e p n toks hp h
    cases e with
    | lit cs =>
      obtain ⟨ht, hn, _, hlen⟩ := matchE_lit_ok h
      subst ht
      exact ⟨by omega, hlen hp, Forest.nil (by omega)⟩
    | rng lo hi =>
      obtain ⟨ht, hn, hlt⟩ := matchE_rng_ok h
      subst ht
      exact ⟨by omega, by omega, Forest.nil (by omega)⟩
    | anyC =>
      obtain ⟨ht, hn, hlt⟩ := matchE_any_ok h
      subst ht
      exact ⟨by omega, by omega, Forest.nil (by omega)⟩
    | eoi =>
      obtain ⟨ht, hn, hpe⟩ := matchE_eoi_ok h
      subst ht
      exact ⟨by omega, by omega, Forest.nil (by omega)⟩
    | seq a b =>
      simp only [matchE] at h
      cases ha : matchE input f a p with
      | ok p1 t1 =>
        simp only [ha] at h
        cases hb : matchE input f b p1 with
        | ok p2 t2 =>
          simp only [hb] at h
          injection h with hn htk
          subst hn
          subst htk
          obtain ⟨h1, h2, hf1⟩ := ih a p p1 t1 hp ha
          obtain ⟨h3, h4, hf2⟩ := ih b p1 p2 t2 h2 hb
          exact ⟨by omega, h4, hf1.append hf2⟩
        | fail => simp only [hb] at h; cases h
        | gas => simp only [hb] at h; cases h
      | fail => simp only [ha] at h; cases h
      | gas => simp only [ha] at h; cases h
    | cho a b =>
      simp only [matchE] at h
      cases ha : matchE input f a p with
      | ok p1 t1 =>
        simp only [ha] at h
        injection h with hn htk
        subst hn
        subst htk
        exact ih a p p1 t1 hp ha
      | fail =>
        simp only [ha] at h
        exact ih b p n toks hp h
      | gas => simp only [ha] at h; cases h
    | opt a =>
      simp only [matchE] at h
      cases ha : matchE input f a p with
      | ok p1 t1 =>
        simp only [ha] at h
        injection h with hn htk
        subst hn
        subst htk
        exact ih a p p1 t1 hp ha
      | fail =>
        simp only [ha] at h
        injection h with hn htk
        subst hn
        subst htk
        exact ⟨le_refl _, hp, Forest.nil (le_refl _)⟩
      | gas => simp only [ha] at h; cases h
    | star a =>
      simp only [matchE] at h
      cases ha : matchE input f a p with
      | fail =>
        simp only [ha] at h
        injection h with hn htk
        subst hn
        subst htk
        exact ⟨le_refl _, hp, Forest.nil (le_refl _)⟩
      | gas => simp only [ha] at h; cases h
      | ok p1 t1 =>
        simp only [ha] at h
        by_cases hp1 : p1 = p
        · rw [if_pos hp1] at h
          injection h with hn htk
          subst hn
          subst htk
          exact ⟨le_refl _, hp, Forest.nil (le_refl _)⟩
        · rw [if_neg hp1] at h
          obtain ⟨h1, h2, hf1⟩ := ih a p p1 t1 hp ha
          cases hs : matchE input f (.star a) p1 with
          | ok p2 t2 =>
            simp only [hs] at h
            injection h with hn htk
            subst hn
            subst htk
            obtain ⟨h3, h4, hf2⟩ := ih (.star a) p1 p2 t2 h2 hs
            exact ⟨by omega, h4, hf1.append hf2⟩
          | fail =>
            simp only [hs] at h
            injection h with hn htk
            subst hn
            subst htk
            exact ⟨h1, h2, hf1⟩
          | gas => simp only [hs] at h; cases h
    | neg a =>
      simp only [matchE] at h
      cases ha : matchE input f a p with
      | ok p1 t1 => simp only [ha] at h; cases h
      | fail =>
        simp only [ha] at h
        injection h with hn htk
        subst hn
        subst htk
        exact ⟨le_refl _, hp, Forest.nil (le_refl _)⟩
      | gas => simp only [ha] at h; cases h
    | refR r =>
      simp only [matchE] at h
      cases hb : matchE input f (grammar r) p with
      | ok p1 t1 =>
        simp only [hb] at h
        injection h with hn htk
        subst hn
        subst htk
        obtain ⟨h1, h2, hf1⟩ := ih (grammar r) p p1 t1 hp hb
        refine ⟨h1, h2, ?_⟩
        have hfact : nodeFact input r p p1 t1 := nodeFact_of_body hp hb
        have hfor := Forest.cons (le_refl p) h1 (le_refl p1) hfact hf1
          (Forest.nil (le_refl p1))
        simpa using hfor
      | fail => simp only [hb] at h; cases h
      | gas => simp only [hb] at h; cases h

/-- Every successful parse yields a `Forest`-structured trace over the whole
matched span. -/
theorem parse_forest {input : List Char} {n : Nat} {toks : List Tok}
    (h : parse input = .ok n toks) :
    n ≤ input.length ∧ Forest input 0 n toks := by
  obtain ⟨_, h2, h3⟩ :=
    matchE_sound (parseFuel input) (.refR .music_code_line) 0 n toks
      (Nat.zero_le _) h
  exact ⟨h2, h3⟩

/-! ## Claim theorem: well-nestedness of the token trace -/

/-- C6: in every token trace produced by a successful parse, tokens are
ordered by nondecreasing start offset, and for any two tokens A and B with A
appearing earlier, either B's span lies entirely at or after A's end, or B's
span is fully contained in A's span; spans never partially overlap. -/
theorem parse_trace_well_nested :
    ∀ (input : List Char) (n : Nat) (toks : List Tok),
      parse input = .ok n toks →
      toks.Pairwise (fun A B =>
        A.start ≤ B.start ∧ (A.stop ≤ B.start ∨ B.stop ≤ A.stop)) := by
  intro input n toks h
  exact (parse_forest h).2.pairwise

/-- Witness for `parse_trace_well_nested`: the trace of the parse of `"A"`. -/
theorem parse_trace_well_nested_witness :
    List.Pairwise (fun A B : Tok =>
        A.start ≤ B.start ∧ (A.stop ≤ B.start ∨ B.stop ≤ A.stop))
      [⟨.music_code_line, 0, 1⟩, ⟨.abc_line, 0, 1⟩, ⟨.element, 0, 1⟩,
       ⟨.stem, 0, 1⟩, ⟨.note, 0, 1⟩, ⟨.pitch, 0, 1⟩, ⟨.basenote, 0, 1⟩,
       ⟨.abc_eol, 1, 1⟩] := by
  exact parse_trace_well_nested ("A".toList) 1
    [⟨.music_code_line, 0, 1⟩, ⟨.abc_line, 0, 1⟩, ⟨.element, 0, 1⟩,
     ⟨.stem, 0, 1⟩, ⟨.note, 0, 1⟩, ⟨.pitch, 0, 1⟩, ⟨.basenote, 0, 1⟩,
     ⟨.abc_eol, 1, 1⟩] (by decide)

/-! ## Symbolic evaluation lemmas for the note-length rules -/

theorem getElem?_of_drop_cons {input : List Char} {p : Nat} {c : Char} {l : List Char}
    (h : input.drop p = c :: l) : input[p]? = some c := by
  have h0 : (input.drop p)[0]? = some c := by rw [h]; simp
  rwa [List.getElem?_drop, Nat.add_zero] at h0

theorem getElem?_of_drop_nil {input : List Char} {p : Nat}
    (h : input.drop p = []) : input[p]? = none := by
  have h0 : (input.drop p)[0]? = none := by rw [h]; simp
  rwa [List.getElem?_drop, Nat.add_zero] at h0

theorem drop_add_of_drop {input : List Char} {p : Nat} {xs rest : List Char}
    (h : input.drop p = xs ++ rest) : input.drop (p + xs.length) = rest := by
  have h1 : input.drop (p + xs.length) = (input.drop p).drop xs.length := by
    rw [List.drop_drop, Nat.add_comm]
  rw [h1, h, List.drop_left]

/-- Peel a single fuel step off a positive symbolic fuel value. -/
theorem matchE_unfold {input : List Char} {F : Nat} {e : Expr} {p : Nat} (h : 0 < F) :
    matchE input F e p = matchE input (F - 1 + 1) e p := by
  congr 1
  omega

theorem rng_ok1 {input : List Char} {f p : Nat} {lo hi c : Char} {l : List Char}
    (h : input.drop p = c :: l) (hc : lo ≤ c ∧ c ≤ hi) (hf : 1 ≤ f) :
    matchE input f (.rng lo hi) p = .ok (p + 1) [] := by
  rw [matchE_unfold (by omega)]
  simp only [matchE]
  rw [getElem?_of_drop_cons h]
  simp [hc.1, hc.2]

theorem rng_fail {input : List Char} {f p : Nat} {lo hi : Char}
    (h : headNot (fun c => lo ≤ c ∧ c ≤ hi) (input.drop p)) (hf : 1 ≤ f) :
    matchE input f (.rng lo hi) p = .fail := by
  rw [matchE_unfold (by omega)]
  simp only [matchE]
  cases hd : input.drop p with
  | nil => rw [getElem?_of_drop_nil hd]
  | cons c l =>
    rw [getElem?_of_drop_cons hd]
    have hnc := h c (by rw [hd]; rfl)
    simp [hnc]

theorem lit_ok {input : List Char} {f p : Nat} {cs rest : List Char}
    (h : input.drop p = cs ++ rest) (hf : 1 ≤ f) :
    matchE input f (.lit cs) p = .ok (p + cs.length) [] := by
  rw [matchE_unfold (by omega)]
  simp only [matchE]
  have hpre : cs.isPrefixOf (input.drop p) = true :=
    List.isPrefixOf_iff_prefix.mpr ⟨rest, h.symm⟩
  simp [hpre]

theorem lit_fail_head {input : List Char} {f p : Nat} {c d : Char} {cs l : List Char}
    (h : input.drop p = d :: l) (hne : d ≠ c) (hf : 1 ≤ f) :
    matchE input f (.lit (c :: cs)) p = .fail := by
  rw [matchE_unfold (by omega)]
  simp only [matchE, h]
  have hpre : (c :: cs).isPrefixOf (d :: l) = false := by
    simp [List.isPrefixOf_cons₂]
    intro hcd
    exact absurd hcd.symm hne
  simp [hpre]

theorem lit_fail_nil {input : List Char} {f p : Nat} {c : Char} {cs : List Char}
    (h : input.drop p = []) (hf : 1 ≤ f) :
    matchE input f (.lit (c :: cs)) p = .fail := by
  rw [matchE_unfold (by omega)]
  simp only [matchE, h]
  simp [List.isPrefixOf]

/-- Greedy repetition of a single-character matcher consumes exactly the run
of characters satisfying the matcher's predicate. -/
theorem star_single {input : List Char} {e : Expr} {P : Char → Prop}
    (hok : ∀ f p c l, input.drop p = c :: l → P c → 1 ≤ f →
        matchE input f e p = .ok (p + 1) [])
    (hfail : ∀ f p, headNot P (input.drop p) → 1 ≤ f →
        matchE input f e p = .fail) :
    ∀ (ds : List Char) (f p : Nat) (rest : List Char),
      input.drop p = ds ++ rest → (∀ c ∈ ds, P c) → headNot P rest →
      ds.length + 2 ≤ f →
      matchE input f (.star e) p = .ok (p + ds.length) [] := by
  intro ds
  induction ds with
  | nil =>
    intro f p rest h hds hrest hf
    rw [matchE_unfold (by omega)]
    simp only [matchE]
    rw [hfail (f - 1) p (by simpa [h] using hrest) (by omega)]
    simp
  | cons d ds' ih =>
    intro f p rest h hds hrest hf
    simp only [List.length_cons] at hf
    rw [matchE_unfold (by omega)]
    simp only [matchE]
    rw [hok (f - 1) p d (ds' ++ rest) (by simpa using h) (hds d (by simp)) (by omega)]
    dsimp only
    rw [if_neg (by omega)]
    have hdrop : input.drop (p + 1) = ds' ++ rest := by
      have hx := @drop_add_of_drop input p [d] (ds' ++ rest) (by simpa using h)
      simpa using hx
    rw [ih (f - 1) (p + 1) rest hdrop (fun c hc => hds c (by simp [hc])) hrest (by omega)]
    have harith : p + 1 + ds'.length = p + (d :: ds').length := by
      simp
      omega
    simp [harith]

theorem lit1_ok {input : List Char} {f p : Nat} {c : Char} {l : List Char}
    (h : input.drop p = c :: l) (hf : 1 ≤ f) :
    matchE input f (.lit [c]) p = .ok (p + 1) [] := by
  have hx := @lit_ok input f p [c] l (by simpa using h) hf
  simpa using hx

theorem slash_not_digit : ¬ isDigitC '/' := fun h => absurd h.1 (by decide)

theorem digit_ne_slash {c : Char} (hc : isDigitC c) : c ≠ '/' := by
  intro heq
  subst heq
  exact slash_not_digit hc

theorem star_digit {input : List Char} :
    ∀ (ds : List Char) (f p : Nat) (rest : List Char),
      input.drop p = ds ++ rest → (∀ c ∈ ds, isDigitC c) → headNot isDigitC rest →
      ds.length + 2 ≤ f →
      matchE input f (.star (.rng '0' '9')) p = .ok (p + ds.length) [] := by
  refine star_single ?_ ?_
  · intro f p c l h hc hf
    exact rng_ok1 h hc hf
  · intro f p hh hf
    exact rng_fail hh hf

theorem star_slash {input : List Char} :
    ∀ (ds : List Char) (f p : Nat) (rest : List Char),
      input.drop p = ds ++ rest → (∀ c ∈ ds, c = '/') →
      headNot (fun c => c = '/') rest → ds.length + 2 ≤ f →
      matchE input f (.star (.lit ['/'])) p = .ok (p + ds.length) [] := by
  refine star_single ?_ ?_
  · intro f p c l h hc hf
    subst hc
    exact lit1_ok h hf
  · intro f p hh hf
    cases hd : input.drop p with
    | nil => exact lit_fail_nil hd hf
    | cons c l =>
      exact lit_fail_head hd (hh c (by rw [hd]; rfl)) hf

theorem digits_ok {input : List Char} {f p : Nat} {ds rest : List Char}
    (h : input.drop p = ds ++ rest) (hds : ∀ c ∈ ds, isDigitC c) (hne : ds ≠ [])
    (hrest : headNot isDigitC rest) (hf : ds.length + 5 ≤ f) :
    matchE input f (.refR .DIGITS) p =
      .ok (p + ds.length) [⟨.DIGITS, p, p + ds.length⟩] := by
  cases ds with
  | nil => exact absurd rfl hne
  | cons d ds' =>
    simp only [List.length_cons] at hf
    rw [matchE_unfold (by omega)]
    simp only [matchE]
    have hg : grammar Rule.DIGITS = .seq (.rng '0' '9') (.star (.rng '0' '9')) := by decide
    rw [hg]
    rw [matchE_unfold (show 0 < f - 1 by omega)]
    simp only [matchE]
    rw [rng_ok1 (by simpa using h) (hds d (by simp)) (by omega)]
    dsimp only
    have hdrop : input.drop (p + 1) = ds' ++ rest := by
      have hx := @drop_add_of_drop input p [d] (ds' ++ rest) (by simpa using h)
      simpa using hx
    rw [star_digit ds' (f - 1 - 1) (p + 1) rest hdrop
      (fun c hc => hds c (by simp [hc])) hrest (by omega)]
    dsimp only
    have harith : p + 1 + ds'.length = p + (ds'.length + 1) := by omega
    simp [harith]

theorem digits_fail {input : List Char} {f p : Nat}
    (h : headNot isDigitC (input.drop p)) (hf : 3 ≤ f) :
    matchE input f (.refR .DIGITS) p = .fail := by
  rw [matchE_unfold (by omega)]
  simp only [matchE]
  have hg : grammar Rule.DIGITS = .seq (.rng '0' '9') (.star (.rng '0' '9')) := by decide
  rw [hg]
  rw [matchE_unfold (show 0 < f - 1 by omega)]
  simp only [matchE]
  rw [rng_fail h (by omega)]

theorem nls_fail {input : List Char} {f p : Nat} {d : Char} {l : List Char}
    (h : input.drop p = d :: l) (hne : d ≠ '/') (hf : 4 ≤ f) :
    matchE input f (.refR .note_length_smaller) p = .fail := by
  rw [matchE_unfold (by omega)]
  simp only [matchE]
  have hg : grammar Rule.note_length_smaller =
      .seq (.lit ['/']) (.refR .DIGITS) := by decide
  rw [hg]
  rw [matchE_unfold (show 0 < f - 1 by omega)]
  simp only [matchE]
  rw [lit_fail_head h hne (by omega)]

theorem nls_fail2 {input : List Char} {f p : Nat} {l : List Char}
    (h : input.drop p = '/' :: l) (hl : headNot isDigitC l) (hf : 8 ≤ f) :
    matchE input f (.refR .note_length_smaller) p = .fail := by
  rw [matchE_unfold (by omega)]
  simp only [matchE]
  have hg : grammar Rule.note_length_smaller =
      .seq (.lit ['/']) (.refR .DIGITS) := by decide
  rw [hg]
  rw [matchE_unfold (show 0 < f - 1 by omega)]
  simp only [matchE]
  rw [lit1_ok h (by omega)]
  dsimp only
  have hdrop : input.drop (p + 1) = l := by
    have hx := @drop_add_of_drop input p ['/'] l (by simpa using h)
    simpa using hx
  rw [digits_fail (by rw [hdrop]; exact hl) (by omega)]

theorem nlf_ok {input : List Char} {f p : Nat} {ds1 ds2 rest : List Char}
    (h : input.drop p = ds1 ++ '/' :: (ds2 ++ rest))
    (h1 : ∀ c ∈ ds1, isDigitC c) (hne1 : ds1 ≠ [])
    (h2 : ∀ c ∈ ds2, isDigitC c) (hne2 : ds2 ≠ [])
    (hrest : headNot isDigitC rest)
    (hf : ds1.length + ds2.length + 16 ≤ f) :
    matchE input f (.refR .note_length_full) p =
      .ok (p + ds1.length + 1 + ds2.length)
        [⟨.note_length_full, p, p + ds1.length + 1 + ds2.length⟩,
         ⟨.DIGITS, p, p + ds1.length⟩,
         ⟨.DIGITS, p + ds1.length + 1, p + ds1.length + 1 + ds2.length⟩] := by
  rw [matchE_unfold (by omega)]
  simp only [matchE]
  have hg : grammar Rule.note_length_full =
      .seq (.refR .DIGITS) (.seq (.lit ['/']) (.refR .DIGITS)) := by decide
  rw [hg]
  rw [matchE_unfold (show 0 < f - 1 by omega)]
  simp only [matchE]
  have hslash : headNot isDigitC ('/' :: (ds2 ++ rest)) := by
    intro c hc
    simp only [List.head?_cons, Option.some.injEq] at hc
    subst hc
    exact slash_not_digit
  rw [digits_ok h h1 hne1 hslash (by omega)]
  dsimp only
  rw [matchE_unfold (show 0 < f - 1 - 1 by omega)]
  simp only [matchE]
  have hd1 : input.drop (p + ds1.length) = '/' :: (ds2 ++ rest) :=
    @drop_add_of_drop input p ds1 ('/' :: (ds2 ++ rest)) h
  rw [lit1_ok hd1 (by omega)]
  dsimp only
  have hd2 : input.drop (p + ds1.length + 1) = ds2 ++ rest := by
    have hx := @drop_add_of_drop input (p + ds1.length) ['/'] (ds2 ++ rest) hd1
    simpa using hx
  rw [digits_ok hd2 h2 hne2 hrest (by omega)]
  dsimp only
  simp

theorem nlf_fail {input : List Char} {f p : Nat}
    (h : headNot isDigitC (input.drop p)) (hf : 6 ≤ f) :
    matchE input f (.refR .note_length_full) p = .fail := by
  rw [matchE_unfold (by omega)]
  simp only [matchE]
  have hg : grammar Rule.note_length_full =
      .seq (.refR .DIGITS) (.seq (.lit ['/']) (.refR .DIGITS)) := by decide
  rw [hg]
  rw [matchE_unfold (show 0 < f - 1 by omega)]
  simp only [matchE]
  rw [digits_fail h (by omega)]

theorem nlf_fail2 {input : List Char} {f p : Nat} {ds rest : List Char}
    (h : input.drop p = ds ++ rest) (hds : ∀ c ∈ ds, isDigitC c) (hne : ds ≠ [])
    (hrd : headNot isDigitC rest) (hrs : headNot (fun c => c = '/') rest)
    (hf : ds.length + 12 ≤ f) :
    matchE input f (.refR .note_length_full) p = .fail := by
  rw [matchE_unfold (by omega)]
  simp only [matchE]
  have hg : grammar Rule.note_length_full =
      .seq (.refR .DIGITS) (.seq (.lit ['/']) (.refR .DIGITS)) := by decide
  rw [hg]
  rw [matchE_unfold (show 0 < f - 1 by omega)]
  simp only [matchE]
  rw [digits_ok h hds hne hrd (by omega)]
  dsimp only
  rw [matchE_unfold (show 0 < f - 1 - 1 by omega)]
  simp only [matchE]
  have hd1 : input.drop (p + ds.length) = rest := @drop_add_of_drop input p ds rest h
  cases hr : rest with
  | nil =>
    rw [lit_fail_nil (by rw [hd1, hr]) (by omega)]
  | cons c l =>
    rw [lit_fail_head (by rw [hd1, hr]) (hrs c (by rw [hr]; rfl)) (by omega)]

theorem nlb_ok {input : List Char} {f p : Nat} {ds rest : List Char}
    (h : input.drop p = ds ++ rest) (hds : ∀ c ∈ ds, isDigitC c) (hne : ds ≠ [])
    (hrest : headNot isDigitC rest) (hf : ds.length + 8 ≤ f) :
    matchE input f (.refR .note_length_bigger) p =
      .ok (p + ds.length)
        [⟨.note_length_bigger, p, p + ds.length⟩, ⟨.DIGITS, p, p + ds.length⟩] := by
  rw [matchE_unfold (by omega)]
  simp only [matchE]
  have hg : grammar Rule.note_length_bigger = Expr.refR .DIGITS := by decide
  rw [hg]
  rw [digits_ok h hds hne hrest (by omega)]

theorem nlb_fail {input : List Char} {f p : Nat}
    (h : headNot isDigitC (input.drop p)) (hf : 5 ≤ f) :
    matchE input f (.refR .note_length_bigger) p = .fail := by
  rw [matchE_unfold (by omega)]
  simp only [matchE]
  have hg : grammar Rule.note_length_bigger = Expr.refR .DIGITS := by decide
  rw [hg]
  rw [digits_fail h (by omega)]

theorem nlsl_ok {input : List Char} {f p : Nat} {sl rest : List Char}
    (h : input.drop p = sl ++ rest) (hsl : ∀ c ∈ sl, c = '/') (hne : sl ≠ [])
    (hrest : headNot (fun c => c = '/') rest) (hf : sl.length + 8 ≤ f) :
    matchE input f (.refR .note_length_slashes) p =
      .ok (p + sl.length) [⟨.note_length_slashes, p, p + sl.length⟩] := by
  cases sl with
  | nil => exact absurd rfl hne
  | cons c sl' =>
    have hc : c = '/' := hsl c (by simp)
    subst hc
    simp only [List.length_cons] at hf
    rw [matchE_unfold (by omega)]
    simp only [matchE]
    have hg : grammar Rule.note_length_slashes =
        .seq (.lit ['/']) (.star (.lit ['/'])) := by decide
    rw [hg]
    rw [matchE_unfold (show 0 < f - 1 by omega)]
    simp only [matchE]
    rw [lit1_ok (by simpa using h) (by omega)]
    dsimp only
    have hdrop : input.drop (p + 1) = sl' ++ rest := by
      have hx := @drop_add_of_drop input p ['/'] (sl' ++ rest) (by simpa using h)
      simpa using hx
    rw [star_slash sl' (f - 1 - 1) (p + 1) rest hdrop
      (fun c hc => hsl c (by simp [hc])) hrest (by omega)]
    dsimp only
    have harith : p + 1 + sl'.length = p + (sl'.length + 1) := by omega
    simp [harith]

theorem nl_full {input : List Char} {f p : Nat} {ds1 ds2 rest : List Char}
    (h : input.drop p = ds1 ++ '/' :: (ds2 ++ rest))
    (h1 : ∀ c ∈ ds1, isDigitC c) (hne1 : ds1 ≠ [])
    (h2 : ∀ c ∈ ds2, isDigitC c) (hne2 : ds2 ≠ [])
    (hrest : headNot isDigitC rest)
    (hf : ds1.length + ds2.length + 24 ≤ f) :
    matchE input f (.refR .note_length) p =
      .ok (p + ds1.length + 1 + ds2.length)
        [⟨.note_length, p, p + ds1.length + 1 + ds2.length⟩,
         ⟨.note_length_full, p, p + ds1.length + 1 + ds2.length⟩,
         ⟨.DIGITS, p, p + ds1.length⟩,
         ⟨.DIGITS, p + ds1.length + 1, p + ds1.length + 1 + ds2.length⟩] := by
  rw [matchE_unfold (by omega)]
  simp only [matchE]
  have hg : grammar Rule.note_length =
      .cho (.refR .note_length_smaller)
        (.cho (.refR .note_length_full)
          (.cho (.refR .note_length_bigger) (.refR .note_length_slashes))) := by decide
  rw [hg]
  rw [matchE_unfold (show 0 < f - 1 by omega)]
  simp only [matchE]
  obtain ⟨d, ds1', rfl⟩ : ∃ d ds1', ds1 = d :: ds1' := by
    cases ds1 with
    | nil => exact absurd rfl hne1
    | cons a b => exact ⟨a, b, rfl⟩
  rw [nls_fail (by simpa using h) (digit_ne_slash (h1 d (by simp))) (by omega)]
  dsimp only
  rw [matchE_unfold (show 0 < f - 1 - 1 by omega)]
  simp only [matchE]
  rw [nlf_ok h h1 hne1 h2 hne2 hrest (by simp at hf ⊢; omega)]

theorem nl_bigger {input : List Char} {f p : Nat} {ds rest : List Char}
    (h : input.drop p = ds ++ rest) (hds : ∀ c ∈ ds, isDigitC c) (hne : ds ≠ [])
    (hrd : headNot isDigitC rest) (hrs : headNot (fun c => c = '/') rest)
    (hf : ds.length + 24 ≤ f) :
    matchE input f (.refR .note_length) p =
      .ok (p + ds.length)
        [⟨.note_length, p, p + ds.length⟩,
         ⟨.note_length_bigger, p, p + ds.length⟩,
         ⟨.DIGITS, p, p + ds.length⟩] := by
  rw [matchE_unfold (by omega)]
  simp only [matchE]
  have hg : grammar Rule.note_length =
      .cho (.refR .note_length_smaller)
        (.cho (.refR .note_length_full)
          (.cho (.refR .note_length_bigger) (.refR .note_length_slashes))) := by decide
  rw [hg]
  rw [matchE_unfold (show 0 < f - 1 by omega)]
  simp only [matchE]
  obtain ⟨d, ds', rfl⟩ : ∃ d ds', ds = d :: ds' := by
    cases ds with
    | nil => exact absurd rfl hne
    | cons a b => exact ⟨a, b, rfl⟩
  rw [nls_fail (by simpa using h) (digit_ne_slash (hds d (by simp))) (by omega)]
  dsimp only
  rw [matchE_unfold (show 0 < f - 1 - 1 by omega)]
  simp only [matchE]
  rw [nlf_fail2 h hds hne hrd hrs (by simp at hf ⊢; omega)]
  dsimp only
  rw [matchE_unfold (show 0 < f - 1 - 1 - 1 by omega)]
  simp only [matchE]
  rw [nlb_ok h hds hne hrd (by simp at hf ⊢; omega)]

theorem nl_slashes {input : List Char} {f p : Nat} {sl rest : List Char}
    (h : input.drop p = sl ++ rest) (hsl : ∀ c ∈ sl, c = '/') (hne : sl ≠ [])
    (hrs : headNot (fun c => c = '/') rest) (hrd : headNot isDigitC rest)
    (hf : sl.length + 24 ≤ f) :
    matchE input f (.refR .note_length) p =
      .ok (p + sl.length)
        [⟨.note_length, p, p + sl.length⟩,
         ⟨.note_length_slashes, p, p + sl.length⟩] := by
  rw [matchE_unfold (by omega)]
  simp only [matchE]
  have hg : grammar Rule.note_length =
      .cho (.refR .note_length_smaller)
        (.cho (.refR .note_length_full)
          (.cho (.refR .note_length_bigger) (.refR .note_length_slashes))) := by decide
  rw [hg]
  rw [matchE_unfold (show 0 < f - 1 by omega)]
  simp only [matchE]
  obtain ⟨sl', rfl⟩ : ∃ sl', sl = '/' :: sl' := by
    cases sl with
    | nil => exact absurd rfl hne
    | cons a b => exact ⟨b, by rw [hsl a (by simp)]⟩
  have hslmem : ∀ c ∈ sl', c = '/' := fun c hc => hsl c (by simp [hc])
  have hnotdig : headNot isDigitC (sl' ++ rest) := by
    cases hsl' : sl' with
    | nil => simpa [hsl'] using hrd
    | cons a b =>
      intro c hc
      simp only [hsl', List.cons_append, List.head?_cons, Option.some.injEq] at hc
      subst hc
      rw [hslmem a (by simp [hsl'])]
      exact slash_not_digit
  have hheadnd : headNot isDigitC (input.drop p) := by
    intro c hc
    rw [h] at hc
    simp only [List.cons_append, List.head?_cons, Option.some.injEq] at hc
    subst hc
    exact slash_not_digit
  rw [nls_fail2 (by simpa using h) hnotdig (by omega)]
  dsimp only
  rw [matchE_unfold (show 0 < f - 1 - 1 by omega)]
  simp only [matchE]
  rw [nlf_fail hheadnd (by omega)]
  dsimp only
  rw [matchE_unfold (show 0 < f - 1 - 1 - 1 by omega)]
  simp only [matchE]
  rw [nlb_fail hheadnd (by omega)]
  dsimp only
  rw [nlsl_ok h hsl hne hrs (by simp at hf ⊢; omega)]

/-! ## Evaluation of `pitch` and `note` on a bare note letter -/

theorem base_facts {b : Char} (hb : isBaseC b) :
    b ≠ '^' ∧ b ≠ '_' ∧ b ≠ '=' := by
  rcases hb with ⟨hb1, hb2⟩ | ⟨hb1, hb2⟩ <;>
    refine ⟨?_, ?_, ?_⟩ <;> intro heq <;> subst heq <;>
      first
        | exact absurd hb1 (by decide)
        | exact absurd hb2 (by decide)

theorem acc_fail {input : List Char} {f p : Nat} {b : Char} {l : List Char}
    (h : input.drop p = b :: l) (hb : isBaseC b) (hf : 8 ≤ f) :
    matchE input f (.refR .accidental) p = .fail := by
  obtain ⟨hb1, hb2, hb3⟩ := base_facts hb
  rw [matchE_unfold (by omega)]
  simp only [matchE]
  have hg : grammar Rule.accidental =
      .cho (.lit ['^', '^']) (.cho (.lit ['^']) (.cho (.lit ['_', '_'])
        (.cho (.lit ['_']) (.lit ['='])))) := by decide
  rw [hg]
  rw [matchE_unfold (show 0 < f - 1 by omega)]
  simp only [matchE]
  rw [lit_fail_head h hb1 (by omega)]
  dsimp only
  rw [matchE_unfold (show 0 < f - 1 - 1 by omega)]
  simp only [matchE]
  rw [lit_fail_head h hb1 (by omega)]
  dsimp only
  rw [matchE_unfold (show 0 < f - 1 - 1 - 1 by omega)]
  simp only [matchE]
  rw [lit_fail_head h hb2 (by omega)]
  dsimp only
  rw [matchE_unfold (show 0 < f - 1 - 1 - 1 - 1 by omega)]
  simp only [matchE]
  rw [lit_fail_head h hb2 (by omega)]
  dsimp only
  rw [lit_fail_head h hb3 (by omega)]

theorem basenote_ok {input : List Char} {f p : Nat} {b : Char} {l : List Char}
    (h : input.drop p = b :: l) (hb : isBaseC b) (hf : 4 ≤ f) :
    matchE input f (.refR .basenote) p = .ok (p + 1) [⟨.basenote, p, p + 1⟩] := by
  rw [matchE_unfold (by omega)]
  simp only [matchE]
  have hg : grammar Rule.basenote = .cho (.rng 'A' 'G') (.rng 'a' 'g') := by decide
  rw [hg]
  rw [matchE_unfold (show 0 < f - 1 by omega)]
  simp only [matchE]
  rcases hb with hbu | hbl
  · rw [rng_ok1 h hbu (by omega)]
  · have hnA : headNot (fun c => 'A' ≤ c ∧ c ≤ 'G') (input.drop p) := by
      intro c hc hcc
      rw [h] at hc
      simp only [List.head?_cons, Option.some.injEq] at hc
      subst hc
      exact absurd (le_trans hbl.1 hcc.2) (by decide)
    rw [rng_fail hnA (by omega)]
    dsimp only
    rw [rng_ok1 h hbl (by omega)]

theorem octave_fail {input : List Char} {f p : Nat}
    (h : headNot (fun c => c = apostC ∨ c = ',') (input.drop p)) (hf : 8 ≤ f) :
    matchE input f (.refR .octave) p = .fail := by
  rw [matchE_unfold (by omega)]
  simp only [matchE]
  have hg : grammar Rule.octave =
      .cho (.seq (.lit [apostC]) (.star (.lit [apostC])))
        (.seq (.lit [',']) (.star (.lit [',']))) := by decide
  rw [hg]
  rw [matchE_unfold (show 0 < f - 1 by omega)]
  simp only [matchE]
  rw [matchE_unfold (show 0 < f - 1 - 1 by omega)]
  simp only [matchE]
  cases hd : input.drop p with
  | nil =>
    rw [lit_fail_nil hd (by omega)]
    dsimp only
    rw [matchE_unfold (show 0 < f - 1 - 1 by omega)]
    simp only [matchE]
    rw [lit_fail_nil hd (by omega)]
  | cons c l =>
    have hcc := h c (by rw [hd]; rfl)
    rw [lit_fail_head hd (fun he => hcc (Or.inl he)) (by omega)]
    dsimp only
    rw [matchE_unfold (show 0 < f - 1 - 1 by omega)]
    simp only [matchE]
    rw [lit_fail_head hd (fun he => hcc (Or.inr he)) (by omega)]

theorem pitch_ok {input : List Char} {f p : Nat} {b : Char} {l : List Char}
    (h : input.drop p = b :: l) (hb : isBaseC b)
    (hnext : headNot (fun c => c = apostC ∨ c = ',') l) (hf : 16 ≤ f) :
    matchE input f (.refR .pitch) p =
      .ok (p + 1) [⟨.pitch, p, p + 1⟩, ⟨.basenote, p, p + 1⟩] := by
  rw [matchE_unfold (by omega)]
  simp only [matchE]
  have hg : grammar Rule.pitch =
      .seq (.opt (.refR .accidental))
        (.seq (.refR .basenote) (.opt (.refR .octave))) := by decide
  rw [hg]
  rw [matchE_unfold (show 0 < f - 1 by omega)]
  simp only [matchE]
  rw [matchE_unfold (show 0 < f - 1 - 1 by omega)]
  simp only [matchE]
  rw [acc_fail h hb (by omega)]
  dsimp only
  rw [matchE_unfold (show 0 < f - 1 - 1 by omega)]
  simp only [matchE]
  rw [basenote_ok h hb (by omega)]
  dsimp only
  have hdropl : input.drop (p + 1) = l := by
    have hx := @drop_add_of_drop input p [b] l (by simpa using h)
    simpa using hx
  rw [matchE_unfold (show 0 < f - 1 - 1 - 1 by omega)]
  simp only [matchE]
  rw [octave_fail (by rw [hdropl]; exact hnext) (by omega)]
  rfl

theorem tie_opt_total {input : List Char} {f q : Nat} (hf : 6 ≤ f) :
    ∃ n4 t4, matchE input f (.opt (.refR .tie)) q = .ok n4 t4 := by
  rw [matchE_unfold (by omega)]
  simp only [matchE]
  rw [matchE_unfold (show 0 < f - 1 by omega)]
  simp only [matchE]
  have hg : grammar Rule.tie = Expr.lit ['-'] := by decide
  rw [hg]
  cases hd : input.drop q with
  | nil =>
    rw [lit_fail_nil hd (by omega)]
    exact ⟨q, [], rfl⟩
  | cons c l =>
    by_cases hc : c = '-'
    · subst hc
      rw [lit1_ok hd (by omega)]
      exact ⟨q + 1, [⟨.tie, q, q + 1⟩], rfl⟩
    · rw [lit_fail_head hd hc (by omega)]
      exact ⟨q, [], rfl⟩

theorem note_full_ok {input : List Char} {f p : Nat} {b : Char} {ds1 ds2 rest : List Char}
    (h : input.drop p = b :: (ds1 ++ '/' :: (ds2 ++ rest)))
    (hb : isBaseC b)
    (h1 : ∀ c ∈ ds1, isDigitC c) (hne1 : ds1 ≠ [])
    (h2 : ∀ c ∈ ds2, isDigitC c) (hne2 : ds2 ≠ [])
    (hrest : headNot isDigitC rest)
    (hf : ds1.length + ds2.length + 40 ≤ f) :
    ∃ n toks, matchE input f (.refR .note) p = .ok n toks ∧
      (⟨.note_length, p + 1, p + 1 + ds1.length + 1 + ds2.length⟩ : Tok) ∈ toks := by
  rw [matchE_unfold (by omega)]
  simp only [matchE]
  have hg : grammar Rule.note =
      .seq (.refR .pitch) (.seq (.opt (.refR .note_length)) (.opt (.refR .tie))) := by decide
  rw [hg]
  rw [matchE_unfold (show 0 < f - 1 by omega)]
  simp only [matchE]
  obtain ⟨d, ds1', rfl⟩ : ∃ d ds1', ds1 = d :: ds1' := by
    cases ds1 with
    | nil => exact absurd rfl hne1
    | cons a bb => exact ⟨a, bb, rfl⟩
  have hnext : headNot (fun c => c = apostC ∨ c = ',') ((d :: ds1') ++ '/' :: (ds2 ++ rest)) := by
    intro c hc
    simp only [List.cons_append, List.head?_cons, Option.some.injEq] at hc
    subst hc
    have hd := h1 d (by simp)
    rintro (hc1 | hc2)
    · subst hc1
      exact absurd hd.1 (by decide)
    · subst hc2
      exact absurd hd.1 (by decide)
  rw [pitch_ok h hb hnext (by omega)]
  dsimp only
  rw [matchE_unfold (show 0 < f - 1 - 1 by omega)]
  simp only [matchE]
  rw [matchE_unfold (show 0 < f - 1 - 1 - 1 by omega)]
  simp only [matchE]
  have hdrop : input.drop (p + 1) = (d :: ds1') ++ '/' :: (ds2 ++ rest) := by
    have hx := @drop_add_of_drop input p [b] ((d :: ds1') ++ '/' :: (ds2 ++ rest))
      (by simpa using h)
    simpa using hx
  rw [nl_full hdrop h1 hne1 h2 hne2 hrest (by simp at hf ⊢; omega)]
  dsimp only
  obtain ⟨n4, t4, ht4⟩ := @tie_opt_total input (f - 1 - 1 - 1)
    (p + 1 + (d :: ds1').length + 1 + ds2.length) (show 6 ≤ f - 1 - 1 - 1 by omega)
  rw [ht4]
  dsimp only
  refine ⟨n4, _, rfl, ?_⟩
  simp

/-! ## Claim theorem: ordered choice of the note-length alternatives -/

/-- C7: the note-length alternatives are ordered so that the longer, more
specific form wins.  For every note whose pitch is followed by
digits `/` digits, the emitted `note_length` token spans the entire
digits-slash-digits text (first conjunct); a bare digit run is consumed in
full by the `note_length_bigger` alternative (second conjunct); and a bare
slash run is consumed in full by the `note_length_slashes` alternative
(third conjunct) — no match is silently truncated. -/
theorem note_length_ordered_choice :
    ∀ (input : List Char) (f p : Nat),
      (∀ (b : Char) (ds1 ds2 rest : List Char),
        input.drop p = b :: (ds1 ++ '/' :: (ds2 ++ rest)) →
        isBaseC b →
        (∀ c ∈ ds1, isDigitC c) → ds1 ≠ [] →
        (∀ c ∈ ds2, isDigitC c) → ds2 ≠ [] →
        headNot isDigitC rest →
        ds1.length + ds2.length + 40 ≤ f →
        ∃ n toks, matchE input f (.refR .note) p = .ok n toks ∧
          (⟨.note_length, p + 1, p + 1 + ds1.length + 1 + ds2.length⟩ : Tok) ∈ toks) ∧
      (∀ (ds rest : List Char),
        input.drop p = ds ++ rest →
        (∀ c ∈ ds, isDigitC c) → ds ≠ [] →
        headNot isDigitC rest → headNot (fun c => c = '/') rest →
        ds.length + 24 ≤ f →
        matchE input f (.refR .note_length) p =
          .ok (p + ds.length)
            [⟨.note_length, p, p + ds.length⟩,
             ⟨.note_length_bigger, p, p + ds.length⟩,
             ⟨.DIGITS, p, p + ds.length⟩]) ∧
      (∀ (sl rest : List Char),
        input.drop p = sl ++ rest →
        (∀ c ∈ sl, c = '/') → sl ≠ [] →
        headNot (fun c => c = '/') rest → headNot isDigitC rest →
        sl.length + 24 ≤ f →
        matchE input f (.refR .note_length) p =
          .ok (p + sl.length)
            [⟨.note_length, p, p + sl.length⟩,
             ⟨.note_length_slashes, p, p + sl.length⟩]) := by
  intro input f p
  refine ⟨?_, ?_, ?_⟩
  · intro b ds1 ds2 rest h hb h1 hne1 h2 hne2 hrest hf
    exact note_full_ok h hb h1 hne1 h2 hne2 hrest hf
  · intro ds rest h hds hne hrd hrs hf
    exact nl_bigger h hds hne hrd hrs hf
  · intro sl rest h hsl hne hrs hrd hf
    exact nl_slashes h hsl hne hrs hrd hf

/-- Witness for `note_length_ordered_choice`: on the note `"A3/2"` the
matched `note_length` token spans positions 1 to 4, i.e. the whole of
`"3/2"`, not just the leading digit. -/
theorem note_length_ordered_choice_witness :
    ∃ n toks, matchE ("A3/2".toList) 50 (.refR .note) 0 = .ok n toks ∧
      (⟨.note_length, 1, 4⟩ : Tok) ∈ toks := by
  have h := (note_length_ordered_choice ("A3/2".toList) 50 0).1 'A' ['3'] ['2'] []
    (by decide) (Or.inl ⟨by decide, by decide⟩)
    (by intro c hc; simp at hc; subst hc; exact ⟨by decide, by decide⟩) (by decide)
    (by intro c hc; simp at hc; subst hc; exact ⟨by decide, by decide⟩) (by decide)
    (by intro c hc; cases hc) (by decide)
  simpa using h

/-! ## Properties of the canonical-rewrite relation -/

theorem canonDelta_refl (xs : List Char) : CanonDelta xs xs := by
  induction xs with
  | nil => exact .nil
  | cons c xs ih => exact .copy c ih

theorem canonDelta_append {a b c d : List Char}
    (h1 : CanonDelta a b) (h2 : CanonDelta c d) :
    CanonDelta (a ++ c) (b ++ d) := by
  induction h1 with
  | nil => simpa using h2
  | copy c0 h ih =>
    simp only [List.cons_append]
    exact .copy c0 ih
  | squash run hne hws h ih =>
    rw [List.append_assoc]
    exact .squash run hne hws ih
  | trim run hne hws h ih =>
    rw [List.append_assoc]
    exact .trim run hne hws ih
  | mark1 h ih =>
    simp only [List.cons_append]
    exact .mark1 ih
  | mark2 h ih =>
    simp only [List.cons_append]
    exact .mark2 ih

theorem canonDelta_nil_left : ∀ {xs ys : List Char}, CanonDelta xs ys → xs = [] → ys = [] := by
  intro xs ys h
  induction h with
  | nil => intro; rfl
  | copy c h ih => intro hx; simp at hx
  | squash run hne hws h ih =>
    intro hx
    exact absurd (List.append_eq_nil.mp hx).1 hne
  | trim run hne hws h ih =>
    intro hx
    exact absurd (List.append_eq_nil.mp hx).1 hne
  | mark1 h ih => intro hx; simp at hx
  | mark2 h ih => intro hx; simp at hx

theorem canonDelta_ws_aux {xs ys : List Char} (h : CanonDelta xs ys) :
    (∀ c ∈ xs, c = ' ' ∨ c = '\t') → ∀ c ∈ ys, c = ' ' ∨ c = '\t' := by
  induction h with
  | nil => intro _ c hc; cases hc
  | copy c0 h ih =>
    intro hxs c hc
    rcases List.mem_cons.mp hc with hc | hc
    · exact hxs c (by simp [hc])
    · exact ih (fun d hd => hxs d (by simp [hd])) c hc
  | squash run hne hws h ih =>
    intro hxs c hc
    rcases List.mem_cons.mp hc with hc | hc
    · subst hc; exact Or.inl rfl
    · exact ih (fun d hd => hxs d (by simp [hd])) c hc
  | trim run hne hws h ih =>
    intro hxs
    exact ih (fun d hd => hxs d (by simp [hd]))
  | mark1 h ih =>
    intro hxs
    exact absurd (hxs '\\' (by simp)) (by decide)
  | mark2 h ih =>
    intro hxs
    exact absurd (hxs ';' (by simp)) (by decide)

theorem canonDelta_ws {xs ys : List Char} (h : CanonDelta xs ys)
    (hxs : ∀ c ∈ xs, c = ' ' ∨ c = '\t') :
    ∀ c ∈ ys, c = ' ' ∨ c = '\t' := canonDelta_ws_aux h hxs

theorem canonDelta_bs : ∀ {zs ys : List Char}, CanonDelta zs ys →
    ∀ xs, zs = '\\' :: xs → (∀ c ∈ xs, c = ' ' ∨ c = '\t') →
    ∃ ys', ys = '\\' :: ys' ∧ ∀ c ∈ ys', c = ' ' ∨ c = '\t' := by
  intro zs ys h
  induction h with
  | nil => intro xs hx; simp at hx
  | copy c0 h ih =>
    intro xs hx hws
    injection hx with h1 h2
    subst h1
    subst h2
    exact ⟨_, rfl, canonDelta_ws h hws⟩
  | squash run hne hws h ih =>
    intro xs hx hwsx
    cases run with
    | nil => exact absurd rfl hne
    | cons r0 run' =>
      simp only [List.cons_append] at hx
      injection hx with h1 _
      exact absurd (h1 ▸ hws r0 (by simp)) (by decide)
  | trim run hne hws h ih =>
    intro xs hx hwsx
    cases run with
    | nil => exact absurd rfl hne
    | cons r0 run' =>
      simp only [List.cons_append] at hx
      injection hx with h1 _
      exact absurd (h1 ▸ hws r0 (by simp)) (by decide)
  | mark1 h ih =>
    intro xs hx hwsx
    injection hx with _ h2
    have : 'n' ∈ xs := by rw [← h2]; simp
    exact absurd (hwsx 'n' this) (by decide)
  | mark2 h ih =>
    intro xs hx
    injection hx with h1 _
    exact absurd h1 (by decide)

theorem canonDelta_filter {xs ys : List Char} (h : CanonDelta xs ys) :
    xs.filter plainChar = ys.filter plainChar := by
  have hsp : plainChar ' ' = false := by decide
  have htb : plainChar '\t' = false := by decide
  have hbs : plainChar '\\' = false := by decide
  have hn : plainChar 'n' = false := by decide
  have hsc : plainChar ';' = false := by decide
  induction h with
  | nil => rfl
  | copy c h ih => simp only [List.filter_cons, ih]
  | squash run hne hws h ih =>
    have hrun : run.filter plainChar = [] := by
      rw [List.filter_eq_nil_iff]
      intro c hc
      rcases hws c hc with hc' | hc' <;> simp [hc', hsp, htb]
    rw [List.filter_append, hrun, List.nil_append, List.filter_cons, hsp, ih]
    simp
  | trim run hne hws h ih =>
    have hrun : run.filter plainChar = [] := by
      rw [List.filter_eq_nil_iff]
      intro c hc
      rcases hws c hc with hc' | hc' <;> simp [hc', hsp, htb]
    rw [List.filter_append, hrun, List.nil_append, ih]
  | mark1 h ih =>
    rw [List.filter_cons, List.filter_cons, List.filter_cons, hbs, hn, hsc, ih]
    simp
  | mark2 h ih =>
    rw [List.filter_cons, List.filter_cons, hsc, ih]

/-! ## Fragment validity and the concatenation homomorphism -/

theorem rstring_add_ok {input : List Char} {a b : RString}
    (ha : a.Ok) (hb : b.Ok) : (a.add b input).Ok := by
  cases a with
  | slice ls le =>
    cases b with
    | slice rs re =>
      simp only [RString.add]
      split
      case isTrue h =>
        have ha' : ls ≤ le := ha
        have hb' : rs ≤ re := hb
        show ls ≤ re
        omega
      case isFalse _ => trivial
    | str r => trivial
  | str l => cases b <;> trivial

theorem rstring_toStr_add {input : List Char} {a b : RString}
    (ha : a.Ok) (hb : b.Ok) :
    (a.add b input).toStr input = a.toStr input ++ b.toStr input := by
  cases a with
  | str l => cases b <;> rfl
  | slice ls le =>
    cases b with
    | str r => rfl
    | slice rs re =>
      simp only [RString.add]
      split
      case isTrue h =>
        subst h
        exact sliceTxt_append ha hb
      case isFalse _ => rfl

/-! ## Splitting a forest at its trailing empty tokens -/

theorem forest_ghost_split {input : List Char} {lo hi : Nat} {ts : List Tok}
    (h : Forest input lo hi ts) :
    ∃ a b, ts = a ++ b ∧ (∀ t ∈ a, t.start < hi) ∧ Forest input hi hi b := by
  induction h with
  | nil hlh => exact ⟨[], [], rfl, by simp, .nil (le_refl _)⟩
  | cons h1 h2 h3 hf hts1 hts2 ih1 ih2 =>
    rename_i lo hi s e r ts1 ts2
    by_cases hs : s < hi
    · by_cases he : e < hi
      · obtain ⟨a2, b2, hts2eq, ha2, hb2⟩ := ih2
        refine ⟨⟨r, s, e⟩ :: ts1 ++ a2, b2, by simp [hts2eq], ?_, hb2⟩
        intro t ht
        rcases List.mem_cons.mp ht with ht | ht
        · subst ht; exact hs
        · rcases List.mem_append.mp ht with ht | ht
          · have := hts1.bounds t ht
            omega
          · exact ha2 t ht
      · have he' : e = hi := by omega
        subst he'
        obtain ⟨a1, b1, hts1eq, ha1, hb1⟩ := ih1
        refine ⟨⟨r, s, e⟩ :: a1, b1 ++ ts2, by simp [hts1eq], ?_, hb1.append hts2⟩
        intro t ht
        rcases List.mem_cons.mp ht with ht | ht
        · subst ht; exact hs
        · exact ha1 t ht
    · have hs' : s = hi := by omega
      have he' : e = hi := by omega
      subst hs'
      refine ⟨[], ⟨r, s, e⟩ :: ts1 ++ ts2, rfl, by simp, ?_⟩
      exact Forest.cons (le_refl _) h2 (by omega) hf hts1 (hts2.weaken (by omega) (le_refl _))

/-! ## Queue indexing via suffixes -/

theorem drop_cons_succ {α : Type} {q : List α} {i : Nat} {t : α} {l : List α}
    (h : q.drop i = t :: l) : q.drop (i + 1) = l := by
  have h1 : q.drop (i + 1) = (q.drop i).drop 1 := by
    rw [List.drop_drop, Nat.add_comm]
  rw [h1, h]
  rfl

theorem tk_of_drop {q : List Tok} {i : Nat} {t : Tok} {l : List Tok}
    (h : q.drop i = t :: l) : tk q i = t := by
  have h0 : q[i]? = some t := by
    have hx : (q.drop i)[0]? = some t := by rw [h]; simp
    rwa [List.getElem?_drop, Nat.add_zero] at hx
  simp [tk, List.getD, h0]

theorem lt_length_of_drop_cons {α : Type} {q : List α} {i : Nat} {t : α} {l : List α}
    (h : q.drop i = t :: l) : i < q.length := by
  by_contra hge
  rw [List.drop_eq_nil_of_le (by omega)] at h
  cases h

theorem sliceTxt_ne_nil {input : List Char} {s e : Nat}
    (h1 : s < e) (h2 : e ≤ input.length) : sliceTxt input s e ≠ [] := by
  intro hcon
  have := congrArg List.length hcon
  simp [sliceTxt, List.length_take, List.length_drop] at this
  omega

/-- A whitespace run rewrites to the empty string (the `trim` move, or
reflexivity when the run is already empty). -/
theorem canonDelta_ws_nil {w : List Char} (hw : ∀ c ∈ w, c = ' ' ∨ c = '\t') :
    CanonDelta w [] := by
  cases w with
  | nil => exact .nil
  | cons c0 w' =>
    have h := CanonDelta.trim (c0 :: w') (by simp) hw CanonDelta.nil
    simpa using h

/-- One-step unfolding of `gather_children` at positive fuel. -/
theorem gather_children_succ (f i : Nat) (q : List Tok) (input : List Char) :
    gather_children (f + 1) i q input =
      if i + 1 < q.length ∧ (tk q (i + 1)).start < (tk q i).stop then
        if (tk q i).start < (tk q (i + 1)).start then
          gather_loop f
            ((RString.slice (tk q i).start (tk q (i + 1)).start).add
              (recurse_children f (i + 1) q input).1 input)
            (tk q (i + 1)).stop (recurse_children f (i + 1) q input).2 i q input
        else
          gather_loop f (recurse_children f (i + 1) q input).1
            (tk q (i + 1)).stop (recurse_children f (i + 1) q input).2 i q input
      else
        (.slice (tk q i).start (tk q i).stop, i + 1) := rfl

/-- One-step unfolding of `gather_loop` at positive fuel. -/
theorem gather_loop_succ (f : Nat) (racc : RString) (m ci i : Nat)
    (q : List Tok) (input : List Char) :
    gather_loop (f + 1) racc m ci i q input =
      if ci < q.length ∧ (tk q ci).start < (tk q i).stop then
        gather_loop f
          ((if m < (tk q ci).start then racc.add (.slice m (tk q ci).start) input
            else racc).add (recurse_children f ci q input).1 input)
          (tk q ci).stop (recurse_children f ci q input).2 i q input
      else
        (if m < (tk q i).stop then racc.add (.slice m (tk q i).stop) input
         else racc, ci) := rfl

/-- One-step unfolding of `recurse_children` at positive fuel. -/
theorem recurse_unfold (f i : Nat) (q : List Tok) (input : List Char) :
    recurse_children (f + 1) i q input =
      match (tk q i).rule with
      | .abc_eol =>
        (.str (rustTrim ((gather_children f i q input).1.toStr input)),
         (gather_children f i q input).2)
      | .chord_newline => (.str [';'], i + 1)
      | .WSP =>
        if sliceTxt input (tk q i).start (tk q i).stop = [' '] then
          (.slice (tk q i).start (tk q i).stop, i + 1)
        else
          (.str [' '], i + 1)
      | _ => gather_children f i q input := rfl

/-- One-step unfolding of `visit_loop` at positive fuel. -/
theorem visit_loop_succ (f i : Nat) (q : List Tok) (input : List Char)
    (acc : List Char) :
    visit_loop (f + 1) i q input acc =
      if i < q.length then
        visit_loop f (recurse_children (visitFuel q) i q input).2 q input
          (acc ++ (recurse_children (visitFuel q) i q input).1.toStr input)
      else acc := rfl

/-- The default arm of the visitor dispatch: any rule other than the three
rewritten ones just gathers its children. -/
theorem recurse_eq_gather {q : List Tok} {input : List Char} {f i : Nat} {r : Rule}
    (htk : (tk q i).rule = r)
    (h1 : r ≠ .abc_eol) (h2 : r ≠ .chord_newline) (h3 : r ≠ .WSP) :
    recurse_children (f + 1) i q input = gather_children f i q input := by
  rw [recurse_unfold, htk]
  cases r
  case abc_eol => exact absurd rfl h1
  case chord_newline => exact absurd rfl h2
  case WSP => exact absurd rfl h3
  all_goals rfl

/-- Main correctness induction for the visitor: on any forest-structured
suffix of the queue, `_recurse_children` (resp. `_gather_children`, the
gathering loop) consumes exactly the live descendants, leaves the trailing
empty tokens for the caller, and produces a fragment related to the covered
input span by the canonical-rewrite relation. -/
theorem visitor_main {q : List Tok} {input : List Char} : ∀ f : Nat,
    (∀ i r s e ts1 rest,
      q.drop i = ⟨r, s, e⟩ :: (ts1 ++ rest) →
      Forest input s e ts1 → nodeFact input r s e ts1 →
      s ≤ e → e ≤ input.length →
      (∀ t ∈ rest, e ≤ t.start) →
      2 * ts1.length + 4 ≤ f →
      ∃ rs j b a, recurse_children f i q input = (rs, j) ∧ rs.Ok ∧
        CanonDelta (sliceTxt input s e) (rs.toStr input) ∧
        q.drop j = b ++ rest ∧ Forest input e e b ∧ ts1 = a ++ b) ∧
    (∀ i r s e ts1 rest,
      q.drop i = ⟨r, s, e⟩ :: (ts1 ++ rest) →
      Forest input s e ts1 →
      s ≤ e → e ≤ input.length →
      (∀ t ∈ rest, e ≤ t.start) →
      2 * ts1.length + 3 ≤ f →
      ∃ rs j b a, gather_children f i q input = (rs, j) ∧ rs.Ok ∧
        CanonDelta (sliceTxt input s e) (rs.toStr input) ∧
        q.drop j = b ++ rest ∧ Forest input e e b ∧ ts1 = a ++ b) ∧
    (∀ i racc m ci s e chunk rest2,
      (tk q i).stop = e →
      q.drop ci = chunk ++ rest2 →
      Forest input m e chunk →
      (∀ t ∈ rest2, e ≤ t.start) →
      s ≤ m → m ≤ e → e ≤ input.length →
      racc.Ok → CanonDelta (sliceTxt input s m) (racc.toStr input) →
      2 * chunk.length + 3 ≤ f →
      ∃ rs j b a, gather_loop f racc m ci i q input = (rs, j) ∧ rs.Ok ∧
        CanonDelta (sliceTxt input s e) (rs.toStr input) ∧
        q.drop j = b ++ rest2 ∧ Forest input e e b ∧ chunk = a ++ b) := by
  intro f
  induction f using Nat.strong_induction_on with
  | _ f ih =>
    refine ⟨?_, ?_, ?_⟩
    · -- recurse_children
      intro i r s e ts1 rest hdrop hfor hfact hse hlen hrest hfuel
      obtain ⟨f0, rfl⟩ : ∃ f0, f = f0 + 1 := ⟨f - 1, by omega⟩
      have htk : tk q i = ⟨r, s, e⟩ := tk_of_drop hdrop
      have hdrop1 : q.drop (i + 1) = ts1 ++ rest := drop_cons_succ hdrop
      by_cases hr1 : r = .abc_eol
      · subst hr1
        obtain ⟨g, j, b, a, hg, hgok, hgd, hdj, hfb, hsplit⟩ :=
          (ih f0 (by omega)).2.1 i .abc_eol s e ts1 rest hdrop hfor hse hlen hrest (by omega)
        obtain ⟨cont, w, hcont, hw, hslice⟩ := hfact
        have heq1 : recurse_children (f0 + 1) i q input =
            (.str (rustTrim (g.toStr input)), j) := by
          rw [recurse_unfold, htk]
          dsimp only
          rw [hg]
        refine ⟨.str (rustTrim (g.toStr input)), j, b, a,
          heq1, trivial, ?_, hdj, hfb, hsplit⟩
        show CanonDelta (sliceTxt input s e) (rustTrim (g.toStr input))
        rw [hslice] at hgd ⊢
        rcases hcont with hc | hc
        · subst hc
          simp only [List.nil_append] at hgd ⊢
          have hgws := canonDelta_ws hgd hw
          have hT : rustTrim (g.toStr input) = [] := by
            rw [rustTrim, trimLeft_all_ws (wsOrTab_isWsChar hgws)]
            rfl
          rw [hT]
          exact canonDelta_ws_nil hw
        · subst hc
          obtain ⟨g', hg', hg'ws⟩ := canonDelta_bs hgd w rfl hw
          rw [hg']
          have hshape := rustTrim_eol_shape (Or.inr rfl) hg'ws
          have hT : rustTrim ('\\' :: g') = ['\\'] := by
            have h1 := hshape.1
            have h2 := hshape.2
            simp only [List.cons_append, List.nil_append] at h1 h2
            exact h1.trans h2
          rw [hT]
          simp only [List.cons_append, List.nil_append]
          exact CanonDelta.copy '\\' (canonDelta_ws_nil hw)
      · by_cases hr2 : r = .chord_newline
        · subst hr2
          obtain ⟨hts1nil, hsl⟩ := hfact
          subst hts1nil
          have heq1 : recurse_children (f0 + 1) i q input = (.str [';'], i + 1) := by
            rw [recurse_unfold, htk]
          refine ⟨.str [';'], i + 1, [], [], heq1, trivial, ?_,
            by simpa using hdrop1, .nil (le_refl _), rfl⟩
          show CanonDelta (sliceTxt input s e) [';']
          rcases hsl with hs1 | hs1
          · rw [hs1]; exact CanonDelta.mark1 .nil
          · rw [hs1]; exact CanonDelta.mark2 .nil
        · by_cases hr3 : r = .WSP
          · subst hr3
            obtain ⟨hts1nil, hlt, hws⟩ := hfact
            subst hts1nil
            by_cases hsp : sliceTxt input s e = [' ']
            · have heq1 : recurse_children (f0 + 1) i q input =
                  (.slice s e, i + 1) := by
                rw [recurse_unfold, htk]
                dsimp only
                rw [if_pos hsp]
              refine ⟨.slice s e, i + 1, [], [], heq1, hse, ?_,
                by simpa using hdrop1, .nil (le_refl _), rfl⟩
              exact canonDelta_refl _
            · have heq1 : recurse_children (f0 + 1) i q input =
                  (.str [' '], i + 1) := by
                rw [recurse_unfold, htk]
                dsimp only
                rw [if_neg hsp]
              refine ⟨.str [' '], i + 1, [], [], heq1, trivial, ?_,
                by simpa using hdrop1, .nil (le_refl _), rfl⟩
              show CanonDelta (sliceTxt input s e) [' ']
              have hcd := CanonDelta.squash (sliceTxt input s e)
                (sliceTxt_ne_nil hlt hlen) hws CanonDelta.nil
              simpa using hcd
          · -- default arm: delegate to gather_children
            rw [recurse_eq_gather (by rw [htk]) hr1 hr2 hr3]
            exact (ih f0 (by omega)).2.1 i r s e ts1 rest hdrop hfor hse hlen hrest
              (by omega)
    · -- gather_children
      intro i r s e ts1 rest hdrop hfor hse hlen hrest hfuel
      obtain ⟨f0, rfl⟩ : ∃ f0, f = f0 + 1 := ⟨f - 1, by omega⟩
      have htk : tk q i = ⟨r, s, e⟩ := tk_of_drop hdrop
      have hdrop1 : q.drop (i + 1) = ts1 ++ rest := drop_cons_succ hdrop
      cases hfor with
      | nil hle =>
        have hdrop1' : q.drop (i + 1) = rest := by simpa using hdrop1
        have hcond : ¬(i + 1 < q.length ∧ (tk q (i + 1)).start < (tk q i).stop) := by
          rintro ⟨hlt2, hlt⟩
          cases hrc : rest with
          | nil =>
            rw [hrc] at hdrop1'
            have hlq := congrArg List.length hdrop1'
            simp only [List.length_drop, List.length_nil] at hlq
            omega
          | cons t rest' =>
            rw [hrc] at hdrop1'
            have htkc := tk_of_drop hdrop1'
            rw [htkc, htk] at hlt
            dsimp only at hlt
            have := hrest t (by rw [hrc]; simp)
            omega
        have heq1 : gather_children (f0 + 1) i q input = (.slice s e, i + 1) := by
          rw [gather_children_succ, if_neg hcond, htk]
        exact ⟨.slice s e, i + 1, [], [], heq1, hse, canonDelta_refl _,
          by simpa using hdrop1', .nil (le_refl _), rfl⟩
      | cons hc1 hc2 hc3 hcf hk hsibs =>
        rename_i s1 e1 r1 k1 sibs
        have hdropc : q.drop (i + 1) = ⟨r1, s1, e1⟩ :: (k1 ++ (sibs ++ rest)) := by
          rw [hdrop1]
          simp [List.append_assoc]
        have htkc := tk_of_drop hdropc
        have hlt2 : i + 1 < q.length := lt_length_of_drop_cons hdropc
        by_cases hlive : s1 < e
        · have hcond : (i + 1 < q.length ∧ (tk q (i + 1)).start < (tk q i).stop) := by
            refine ⟨hlt2, ?_⟩
            rw [htkc, htk]
            exact hlive
          obtain ⟨r2, j2, b1, a1, hrec, hok2, hd2, hdj2, hfb1, hsplit1⟩ :=
            (ih f0 (by omega)).1 (i + 1) r1 s1 e1 k1 (sibs ++ rest) hdropc hk hcf hc2
              (le_trans hc3 hlen)
              (fun t ht => by
                rcases List.mem_append.mp ht with ht | ht
                · exact (hsibs.bounds t ht).1
                · exact le_trans hc3 (hrest t ht))
              (by simp only [List.length_cons, List.length_append] at hfuel; omega)
          have hdj2' : q.drop j2 = (b1 ++ sibs) ++ rest := by
            rw [hdj2, List.append_assoc]
          have hlb1 : b1.length ≤ k1.length := by
            have := congrArg List.length hsplit1
            simp only [List.length_append] at this
            omega
          have hfuelL : 2 * (b1 ++ sibs).length + 3 ≤ f0 := by
            simp only [List.length_append]
            simp only [List.length_cons, List.length_append] at hfuel
            omega
          by_cases hgap : s < s1
          · have heq1 : gather_children (f0 + 1) i q input =
                gather_loop f0 ((RString.slice s s1).add r2 input) e1 j2 i q input := by
              rw [gather_children_succ, if_pos hcond, htk, htkc]
              dsimp only
              rw [if_pos hgap, hrec]
            have hok' : ((RString.slice s s1).add r2 input).Ok :=
              rstring_add_ok (show (RString.slice s s1).Ok from le_of_lt hgap) hok2
            have hd' : CanonDelta (sliceTxt input s e1)
                (((RString.slice s s1).add r2 input).toStr input) := by
              rw [rstring_toStr_add (show (RString.slice s s1).Ok from le_of_lt hgap)
                hok2]
              rw [sliceTxt_append (le_of_lt hgap) hc2]
              exact canonDelta_append (canonDelta_refl _) hd2
            obtain ⟨rs, j, b, a2, hloop, hokL, hdL, hdjL, hfbL, hsplitL⟩ :=
              (ih f0 (by omega)).2.2 i ((RString.slice s s1).add r2 input) e1 j2 s e
                (b1 ++ sibs) rest (by rw [htk]) hdj2' (hfb1.append hsibs) hrest
                (by omega) hc3 hlen hok' hd' hfuelL
            refine ⟨rs, j, b, ⟨r1, s1, e1⟩ :: (a1 ++ a2), ?_, hokL, hdL, hdjL, hfbL, ?_⟩
            · rw [heq1]
              exact hloop
            · rw [hsplit1]
              simp only [List.cons_append, List.append_assoc]
              rw [hsplitL]
          · have hseq : s = s1 := by omega
            subst hseq
            have heq1 : gather_children (f0 + 1) i q input =
                gather_loop f0 r2 e1 j2 i q input := by
              rw [gather_children_succ, if_pos hcond, htk, htkc]
              dsimp only
              rw [if_neg (lt_irrefl s), hrec]
            obtain ⟨rs, j, b, a2, hloop, hokL, hdL, hdjL, hfbL, hsplitL⟩ :=
              (ih f0 (by omega)).2.2 i r2 e1 j2 s e (b1 ++ sibs) rest
                (by rw [htk]) hdj2' (hfb1.append hsibs) hrest hc2 hc3 hlen hok2 hd2
                hfuelL
            refine ⟨rs, j, b, ⟨r1, s, e1⟩ :: (a1 ++ a2), ?_, hokL, hdL, hdjL, hfbL, ?_⟩
            · rw [heq1]
              exact hloop
            · rw [hsplit1]
              simp only [List.cons_append, List.append_assoc]
              rw [hsplitL]
        · -- the first candidate child is an empty trailing token
          have hs1e : s1 = e := by omega
          have he1e : e1 = e := by omega
          have hcond : ¬(i + 1 < q.length ∧ (tk q (i + 1)).start < (tk q i).stop) := by
            rintro ⟨-, hlt⟩
            rw [htkc, htk] at hlt
            dsimp only at hlt
            omega
          have heq1 : gather_children (f0 + 1) i q input = (.slice s e, i + 1) := by
            rw [gather_children_succ, if_neg hcond, htk]
          have hghost : Forest input e e (⟨r1, s1, e1⟩ :: k1 ++ sibs) :=
            Forest.cons (by omega) hc2 hc3 hcf hk hsibs
          exact ⟨.slice s e, i + 1, ⟨r1, s1, e1⟩ :: k1 ++ sibs, [], heq1, hse,
            canonDelta_refl _, hdrop1, hghost, by simp⟩
    · -- gather_loop
      intro i racc m ci s e chunk rest2 htkstop hdropci hforC hrest2 hsm hme hlen
        hraccOk hraccD hfuel
      obtain ⟨f0, rfl⟩ : ∃ f0, f = f0 + 1 := ⟨f - 1, by omega⟩
      cases hforC with
      | nil hmle =>
        have hdropci' : q.drop ci = rest2 := by simpa using hdropci
        have hcond : ¬(ci < q.length ∧ (tk q ci).start < (tk q i).stop) := by
          rintro ⟨hltci, hlt⟩
          cases hrc : rest2 with
          | nil =>
            rw [hrc] at hdropci'
            have hlq := congrArg List.length hdropci'
            simp only [List.length_drop, List.length_nil] at hlq
            omega
          | cons t rest' =>
            rw [hrc] at hdropci'
            have htkc2 := tk_of_drop hdropci'
            rw [htkc2, htkstop] at hlt
            have := hrest2 t (by rw [hrc]; simp)
            omega
        have heq1 : gather_loop (f0 + 1) racc m ci i q input =
            (if m < e then racc.add (.slice m e) input else racc, ci) := by
          rw [gather_loop_succ, if_neg hcond, htkstop]
        by_cases hmlt : m < e
        · refine ⟨racc.add (.slice m e) input, ci, [], [],
            by rw [heq1, if_pos hmlt],
            rstring_add_ok hraccOk (show (RString.slice m e).Ok from le_of_lt hmlt),
            ?_, by simpa using hdropci', .nil (le_refl _), rfl⟩
          rw [rstring_toStr_add hraccOk
            (show (RString.slice m e).Ok from le_of_lt hmlt)]
          rw [sliceTxt_append hsm (le_of_lt hmlt)]
          exact canonDelta_append hraccD (canonDelta_refl _)
        · have hmeq : m = e := by omega
          refine ⟨racc, ci, [], [], by rw [heq1, if_neg hmlt], hraccOk, ?_,
            by simpa using hdropci', .nil (le_refl _), rfl⟩
          rw [← hmeq]
          exact hraccD
      | cons hc1 hc2 hc3 hcf hk hsibs =>
        rename_i s1 e1 r1 k1 sibs
        have hdropc : q.drop ci = ⟨r1, s1, e1⟩ :: (k1 ++ (sibs ++ rest2)) := by
          rw [hdropci]
          simp [List.append_assoc]
        have htkc := tk_of_drop hdropc
        have hltci : ci < q.length := lt_length_of_drop_cons hdropc
        by_cases hlive : s1 < e
        · have hcond : (ci < q.length ∧ (tk q ci).start < (tk q i).stop) := by
            refine ⟨hltci, ?_⟩
            rw [htkc, htkstop]
            exact hlive
          obtain ⟨r2, j2, b1, a1, hrec, hok2, hd2, hdj2, hfb1, hsplit1⟩ :=
            (ih f0 (by omega)).1 ci r1 s1 e1 k1 (sibs ++ rest2) hdropc hk hcf hc2
              (le_trans hc3 hlen)
              (fun t ht => by
                rcases List.mem_append.mp ht with ht | ht
                · exact (hsibs.bounds t ht).1
                · exact le_trans hc3 (hrest2 t ht))
              (by simp only [List.length_cons, List.length_append] at hfuel; omega)
          have hdj2' : q.drop j2 = (b1 ++ sibs) ++ rest2 := by
            rw [hdj2, List.append_assoc]
          have hlb1 : b1.length ≤ k1.length := by
            have := congrArg List.length hsplit1
            simp only [List.length_append] at this
            omega
          have hfuelL : 2 * (b1 ++ sibs).length + 3 ≤ f0 := by
            simp only [List.length_append]
            simp only [List.length_cons, List.length_append] at hfuel
            omega
          by_cases hgap : m < s1
          · have heq1 : gather_loop (f0 + 1) racc m ci i q input =
                gather_loop f0 ((racc.add (.slice m s1) input).add r2 input) e1 j2
                  i q input := by
              rw [gather_loop_succ, if_pos hcond, htkc]
              dsimp only
              rw [if_pos hgap, hrec]
            have hok1 : (racc.add (.slice m s1) input).Ok :=
              rstring_add_ok hraccOk (show (RString.slice m s1).Ok from le_of_lt hgap)
            have hok' : ((racc.add (.slice m s1) input).add r2 input).Ok :=
              rstring_add_ok hok1 hok2
            have hd' : CanonDelta (sliceTxt input s e1)
                (((racc.add (.slice m s1) input).add r2 input).toStr input) := by
              rw [rstring_toStr_add hok1 hok2]
              rw [rstring_toStr_add hraccOk
                (show (RString.slice m s1).Ok from le_of_lt hgap)]
              rw [sliceTxt_append (show s ≤ s1 by omega) hc2]
              rw [sliceTxt_append hsm (le_of_lt hgap)]
              exact canonDelta_append (canonDelta_append hraccD (canonDelta_refl _)) hd2
            obtain ⟨rs, j, b, a2, hloop, hokL, hdL, hdjL, hfbL, hsplitL⟩ :=
              (ih f0 (by omega)).2.2 i ((racc.add (.slice m s1) input).add r2 input)
                e1 j2 s e (b1 ++ sibs) rest2 htkstop hdj2' (hfb1.append hsibs) hrest2
                (by omega) hc3 hlen hok' hd' hfuelL
            refine ⟨rs, j, b, ⟨r1, s1, e1⟩ :: (a1 ++ a2), ?_, hokL, hdL, hdjL, hfbL, ?_⟩
            · rw [heq1]
              exact hloop
            · rw [hsplit1]
              simp only [List.cons_append, List.append_assoc]
              rw [hsplitL]
          · have hmeq : m = s1 := by omega
            subst hmeq
            have heq1 : gather_loop (f0 + 1) racc m ci i q input =
                gather_loop f0 (racc.add r2 input) e1 j2 i q input := by
              rw [gather_loop_succ, if_pos hcond, htkc]
              dsimp only
              rw [if_neg (lt_irrefl m), hrec]
            have hok' : (racc.add r2 input).Ok := rstring_add_ok hraccOk hok2
            have hd' : CanonDelta (sliceTxt input s e1)
                ((racc.add r2 input).toStr input) := by
              rw [rstring_toStr_add hraccOk hok2]
              rw [sliceTxt_append hsm hc2]
              exact canonDelta_append hraccD hd2
            obtain ⟨rs, j, b, a2, hloop, hokL, hdL, hdjL, hfbL, hsplitL⟩ :=
              (ih f0 (by omega)).2.2 i (racc.add r2 input) e1 j2 s e
                (b1 ++ sibs) rest2 htkstop hdj2' (hfb1.append hsibs) hrest2
                (by omega) hc3 hlen hok' hd' hfuelL
            refine ⟨rs, j, b, ⟨r1, m, e1⟩ :: (a1 ++ a2), ?_, hokL, hdL, hdjL, hfbL, ?_⟩
            · rw [heq1]
              exact hloop
            · rw [hsplit1]
              simp only [List.cons_append, List.append_assoc]
              rw [hsplitL]
        · -- the candidate child is an empty trailing token: exit the loop
          have hs1e : s1 = e := by omega
          have he1e : e1 = e := by omega
          have hcond : ¬(ci < q.length ∧ (tk q ci).start < (tk q i).stop) := by
            rintro ⟨-, hlt⟩
            rw [htkc, htkstop] at hlt
            dsimp only at hlt
            omega
          have heq1 : gather_loop (f0 + 1) racc m ci i q input =
              (if m < e then racc.add (.slice m e) input else racc, ci) := by
            rw [gather_loop_succ, if_neg hcond, htkstop]
          have hghost : Forest input e e (⟨r1, s1, e1⟩ :: k1 ++ sibs) :=
            Forest.cons (by omega) hc2 hc3 hcf hk hsibs
          by_cases hmlt : m < e
          · refine ⟨racc.add (.slice m e) input, ci, ⟨r1, s1, e1⟩ :: k1 ++ sibs, [],
              by rw [heq1, if_pos hmlt],
              rstring_add_ok hraccOk (show (RString.slice m e).Ok from le_of_lt hmlt),
              ?_, hdropci, hghost, by simp⟩
            rw [rstring_toStr_add hraccOk
              (show (RString.slice m e).Ok from le_of_lt hmlt)]
            rw [sliceTxt_append hsm (le_of_lt hmlt)]
            exact canonDelta_append hraccD (canonDelta_refl _)
          · have hmeq : m = e := by omega
            refine ⟨racc, ci, ⟨r1, s1, e1⟩ :: k1 ++ sibs, [],
              by rw [heq1, if_neg hmlt], hraccOk, ?_, hdropci, hghost, by simp⟩
            rw [← hmeq]
            exact hraccD

/-- The top-level loop is a no-op on a trailing run of empty tokens: each of
them gathers no text, so the accumulated output is unchanged. -/
theorem visit_loop_ghost {q : List Tok} {input : List Char} {L : Nat}
    (hL : L ≤ input.length) :
    ∀ f i gh acc, q.drop i = gh → Forest input L L gh → gh.length + 1 ≤ f →
      visit_loop f i q input acc = acc := by
  intro f
  induction f with
  | zero =>
    intro i gh acc _ _ _
    rfl
  | succ f ihf =>
    intro i gh acc hdrop hfor hf
    cases hfor with
    | nil h =>
      have hlq := congrArg List.length hdrop
      simp only [List.length_drop, List.length_nil] at hlq
      rw [visit_loop_succ, if_neg (by omega)]
    | cons hc1 hc2 hc3 hcf hk hsibs =>
      rename_i s1 e1 r1 k1 sibs
      obtain ⟨rs, j, b, a, hrec, hok, hdel, hdj, hfb, hsplit⟩ :=
        (visitor_main (visitFuel q)).1 i r1 s1 e1 k1 sibs hdrop hk hcf hc2
          (by omega)
          (fun t ht => (hsibs.bounds t ht).1)
          (by
            have hlq := congrArg List.length hdrop
            simp only [List.length_drop, List.length_cons, List.length_append] at hlq
            simp only [visitFuel]
            omega)
      rw [visit_loop_succ, if_pos (lt_length_of_drop_cons hdrop), hrec]
      dsimp only
      have hnil : rs.toStr input = [] := by
        refine canonDelta_nil_left hdel ?_
        have hs1 : s1 = L := by omega
        have he1 : e1 = L := by omega
        rw [hs1, he1]
        exact sliceTxt_self input L
      rw [hnil, List.append_nil]
      refine ihf j (b ++ sibs) acc hdj ?_ ?_
      · exact (hfb.append hsibs).weaken (by omega) (le_refl _)
      · have hlb : b.length ≤ k1.length := by
          have := congrArg List.length hsplit
          simp only [List.length_append] at this
          omega
        simp only [List.length_append]
        simp only [List.length_cons, List.length_append] at hf
        omega

/-- A successful parse consumes the whole input (the top rule ends in
end-of-input) and its trace starts with the `music_code_line` token. -/
theorem parse_shape {input : List Char} {n : Nat} {toks : List Tok}
    (h : parse input = .ok n toks) :
    n = input.length ∧ ∃ body, toks = ⟨.music_code_line, 0, n⟩ :: body := by
  unfold parse at h
  have hstep : matchE input (parseFuel input) (.refR .music_code_line) 0 =
      match matchE input (parseFuel input - 1) (grammar .music_code_line) 0 with
      | .ok p1 t1 => .ok p1 (⟨.music_code_line, 0, p1⟩ :: t1)
      | r2 => r2 := by
    rw [matchE_unfold (by unfold parseFuel; omega)]
    rfl
  rw [hstep] at h
  cases hb : matchE input (parseFuel input - 1) (grammar .music_code_line) 0 with
  | fail => simp only [hb] at h; cases h
  | gas => simp only [hb] at h; cases h
  | ok p1 t1 =>
    simp only [hb] at h
    injection h with hn htk2
    subst hn
    subst htk2
    refine ⟨?_, t1, rfl⟩
    have hg : grammar Rule.music_code_line = .seq (.refR .abc_line) .eoi := by decide
    rw [hg] at hb
    have hstep2 : matchE input (parseFuel input - 1)
        (.seq (.refR .abc_line) .eoi) 0 =
        match matchE input (parseFuel input - 1 - 1) (.refR .abc_line) 0 with
        | .ok p1 t1 =>
          match matchE input (parseFuel input - 1 - 1) .eoi p1 with
          | .ok p2 t2 => .ok p2 (t1 ++ t2)
          | .fail => .fail
          | .gas => .gas
        | r => r := by
      rw [matchE_unfold (show 0 < parseFuel input - 1 by unfold parseFuel; omega)]
      rfl
    rw [hstep2] at hb
    cases ha : matchE input (parseFuel input - 1 - 1) (.refR .abc_line) 0 with
    | fail => simp only [ha] at hb; cases hb
    | gas => simp only [ha] at hb; cases hb
    | ok pa ta =>
      simp only [ha] at hb
      cases he : matchE input (parseFuel input - 1 - 1) .eoi pa with
      | fail => simp only [he] at hb; cases hb
      | gas => simp only [he] at hb; cases hb
      | ok pe te =>
        simp only [he] at hb
        injection hb with h1 h2
        obtain ⟨-, hpe, hpa⟩ := matchE_eoi_ok he
        omega

/-! ## Claim theorems: local rewrite rules of the visitor -/

/-- C2: for every token matched by the whitespace-run rule `WSP`, the
canonicalization visitor emits exactly one ASCII space: a single-space match
is kept as a borrowed span of the input, any other run is replaced by one
freshly built single-space string; and on the accepted input
`"A   B\t\t C"` the canonical output is `"A B C"`. -/
theorem wsp_token_squash :
    (∀ (q : List Tok) (input : List Char) (i fuel : Nat),
        (tk q i).rule = .WSP →
        recurse_children (fuel + 1) i q input =
          (if sliceTxt input (tk q i).start (tk q i).stop = [' ']
           then (RString.slice (tk q i).start (tk q i).stop, i + 1)
           else (RString.str [' '], i + 1))) ∧
    canonicalize ("A   B\t\t C".toList) = some ("A B C".toList) := by
  constructor
  · intro q input i fuel h
    simp only [recurse_children, h]
  · decide

/-- Witness for `wsp_token_squash`: instantiated at a concrete three-space
`WSP` token (replaced by an owned single space) and at a concrete
single-space token (kept as a borrowed span). -/
theorem wsp_token_squash_witness :
    recurse_children 1 0 [⟨.WSP, 0, 3⟩] ("   ".toList) = (RString.str [' '], 1) ∧
    recurse_children 1 0 [⟨.WSP, 0, 1⟩] (" ".toList) = (RString.slice 0 1, 1) := by
  constructor
  · have h := wsp_token_squash.1 [⟨.WSP, 0, 3⟩] ("   ".toList) 0 0 (by decide)
    rw [h]
    decide
  · have h := wsp_token_squash.1 [⟨.WSP, 0, 1⟩] (" ".toList) 0 0 (by decide)
    rw [h]
    decide

/-- C4: for every token matched by the internal-separator rule
`chord_newline` (spelled either `\n` or `;` inside quoted chord/annotation
text), the visitor emits the single literal `;`, regardless of the matched
spelling; shown end-to-end on both spellings. -/
theorem chord_newline_to_semicolon :
    (∀ (q : List Tok) (input : List Char) (i fuel : Nat),
        (tk q i).rule = .chord_newline →
        recurse_children (fuel + 1) i q input = (RString.str [';'], i + 1)) ∧
    canonicalize ("\"C\\nD\"".toList) = some ("\"C;D\"".toList) ∧
    canonicalize ("\"C;D\"".toList) = some ("\"C;D\"".toList) := by
  refine ⟨?_, by decide, by decide⟩
  intro q input i fuel h
  simp only [recurse_children, h]

/-- Witness for `chord_newline_to_semicolon`: instantiated at a concrete
`chord_newline` token over the two-character marker. -/
theorem chord_newline_to_semicolon_witness :
    recurse_children 1 0 [⟨.chord_newline, 0, 2⟩] ("\\n".toList) =
      (RString.str [';'], 1) := by
  exact chord_newline_to_semicolon.1 [⟨.chord_newline, 0, 2⟩] ("\\n".toList) 0 0 (by decide)

/-- C5: for every token matched by the line-ending rule `abc_eol`, the
visitor's result is the normally gathered text of the token's children with
trailing whitespace trimmed — and, since that gathered text is an optional
continuation marker followed by whitespace, only trailing whitespace is
removed (the code's two-sided `str::trim` cannot bite at the front) and the
continuation marker `\` itself is preserved. -/
theorem abc_eol_trims_trailing :
    ∀ (q : List Tok) (input : List Char) (i fuel : Nat) (g : RString) (ni : Nat)
      (cont w : List Char),
      (tk q i).rule = .abc_eol →
      gather_children fuel i q input = (g, ni) →
      g.toStr input = cont ++ w →
      (cont = [] ∨ cont = ['\\']) →
      (∀ c ∈ w, c = ' ' ∨ c = '\t') →
      recurse_children (fuel + 1) i q input =
        (RString.str (trimRight (g.toStr input)), ni) ∧
      trimRight (g.toStr input) = cont := by
  intro q input i fuel g ni cont w hrule hg htext hcont hw
  obtain ⟨heq, htrim⟩ := rustTrim_eol_shape hcont hw
  rw [← htext] at heq htrim
  constructor
  · simp only [recurse_children, hrule, hg, heq]
  · exact htrim

/-- Witness for `abc_eol_trims_trailing`: the `abc_eol` token of the parse of
`"A\ "` (continuation marker followed by one space); the gathered text is the
borrowed span `"\ "` and the visitor returns the owned string `"\"`. -/
theorem abc_eol_trims_trailing_witness :
    recurse_children 21 7
        [⟨.music_code_line, 0, 3⟩, ⟨.abc_line, 0, 3⟩, ⟨.element, 0, 1⟩,
         ⟨.stem, 0, 1⟩, ⟨.note, 0, 1⟩, ⟨.pitch, 0, 1⟩, ⟨.basenote, 0, 1⟩,
         ⟨.abc_eol, 1, 3⟩, ⟨.line_continuation, 1, 2⟩, ⟨.WSP, 2, 3⟩]
        ("A\\ ".toList) =
      (RString.str ['\\'], 10) := by
  have h := abc_eol_trims_trailing
    [⟨.music_code_line, 0, 3⟩, ⟨.abc_line, 0, 3⟩, ⟨.element, 0, 1⟩,
     ⟨.stem, 0, 1⟩, ⟨.note, 0, 1⟩, ⟨.pitch, 0, 1⟩, ⟨.basenote, 0, 1⟩,
     ⟨.abc_eol, 1, 3⟩, ⟨.line_continuation, 1, 2⟩, ⟨.WSP, 2, 3⟩]
    ("A\\ ".toList) 7 20 (RString.slice 1 3) 10 ['\\'] [' ']
    (by decide) (by decide) (by decide) (by right; rfl) (by decide)
  rw [h.1, h.2]

/-! ## Claim theorems: acceptance and rejection of concrete inputs -/

/-- C8 counterexample: the input consisting solely of the reserved character
`;` does not fail with a `SyntaxError` — it parses successfully (through the
`element → unused_char → reserved_char` chain) and produces canonical
output. -/
theorem reserved_char_accepted_cex :
    canonicalize (";".toList) = some (";".toList) := by decide

/-- C8 (amended): reserved characters used as tune-body content are not
rejected: the `element` rule's `unused_char` alternative matches them via
`reserved_char`, so an input consisting solely of any one of `#`, `*`, `;`,
`?`, `@` parses successfully and canonicalizes to itself. -/
theorem reserved_chars_accepted :
    canonicalize ("#".toList) = some ("#".toList) ∧
    canonicalize ("*".toList) = some ("*".toList) ∧
    canonicalize (";".toList) = some (";".toList) ∧
    canonicalize ("?".toList) = some ("?".toList) ∧
    canonicalize ("@".toList) = some ("@".toList) := by
  refine ⟨by decide, by decide, by decide, by decide, by decide⟩

/-- C9 counterexample: the input `"A2 B2 | C2 D2\n"`, ending in a literal
newline character, is rejected: no grammar rule matches a newline, so
`abc_line ~ eoi` cannot cover the input and no canonical output is
produced. -/
theorem newline_input_rejected_cex :
    canonicalize ("A2 B2 | C2 D2\n".toList) = none := by decide

/-- C9 (amended): the tune line without the terminating newline character,
`"A2 B2 | C2 D2"`, is accepted by `music_code_line` and canonicalizes to
itself (internal single spaces preserved), while the newline-terminated
variant fails with a `SyntaxError` (a genuine match failure, not fuel
exhaustion). -/
theorem music_line_example_canonical :
    canonicalize ("A2 B2 | C2 D2".toList) = some ("A2 B2 | C2 D2".toList) ∧
    parse ("A2 B2 | C2 D2\n".toList) = .fail := by
  refine ⟨by decide, by decide⟩

/-- C10: the empty input is rejected: `abc_line` requires at least one
element or one barline before the line ending, so matching the empty string
fails with a `SyntaxError` (a genuine match failure, not fuel exhaustion)
rather than succeeding with empty output. -/
theorem empty_input_rejected :
    parse ([] : List Char) = .fail ∧ canonicalize ([] : List Char) = none := by
  refine ⟨by decide, by decide⟩

/-! ## Claim theorem: canonicalization only rewrites whitespace and
separator markers -/

/-- C1: for every input accepted by the parser, the canonical output differs
from the input only at whitespace runs (squashed to one space), line-trailing
whitespace (trimmed), and internal separator markers (normalized to `;`):
the output is obtained from the input by the rewrite relation `CanonDelta`,
and in particular every non-whitespace, non-separator-spelling character of
the input appears in the output unchanged and in the same relative order
(the filtered character sequences coincide). -/
theorem canonicalize_preserves_nonwhitespace :
    ∀ (input out : List Char), canonicalize input = some out →
      CanonDelta input out ∧
      input.filter plainChar = out.filter plainChar := by
  intro input out h
  unfold canonicalize at h
  cases hp : parse input with
  | fail => rw [hp] at h; exact Option.noConfusion h
  | gas => rw [hp] at h; exact Option.noConfusion h
  | ok n toks =>
    rw [hp] at h
    have h' : some (visit_parse_tree toks input) = some out := h
    injection h' with hout
    obtain ⟨hn, body, htoks⟩ := parse_shape hp
    obtain ⟨-, hfor⟩ := parse_forest hp
    subst hn
    subst htoks
    cases hfor with
    | cons hc1 hc2 hc3 hcf hts1 hts2 =>
      rename_i ts1 ts2
      obtain ⟨rs, j, b, a, hrec, hok, hdel, hdj, hfb, hsplit⟩ :=
        (visitor_main
          (visitFuel (⟨.music_code_line, 0, input.length⟩ :: (ts1 ++ ts2)))).1
          0 .music_code_line 0 input.length ts1 ts2 rfl hts1 trivial
          (Nat.zero_le _) (le_refl _) (fun t ht => (hts2.bounds t ht).1)
          (by simp only [visitFuel, List.length_cons, List.length_append]; omega)
      have hvl : visit_parse_tree
          (⟨.music_code_line, 0, input.length⟩ :: (ts1 ++ ts2)) input =
          rs.toStr input := by
        unfold visit_parse_tree
        rw [visit_loop_succ, if_pos (by simp), hrec]
        dsimp only
        rw [List.nil_append]
        refine visit_loop_ghost (le_refl input.length) _ j (b ++ ts2)
          (rs.toStr input) hdj (hfb.append hts2) ?_
        have hlb : b.length ≤ ts1.length := by
          have := congrArg List.length hsplit
          simp only [List.length_append] at this
          omega
        simp only [List.length_append, List.length_cons]
        omega
      rw [sliceTxt_all] at hdel
      have hout' : out = rs.toStr input := by
        rw [← hout]
        exact hvl
      rw [hout']
      exact ⟨hdel, canonDelta_filter hdel⟩

/-- Witness for `canonicalize_preserves_nonwhitespace`: the accepted input
`"A  B"` canonicalizes to `"A B"`, the rewrite relation holds between the
two, and their non-whitespace characters agree. -/
theorem canonicalize_preserves_nonwhitespace_witness :
    CanonDelta ("A  B".toList) ("A B".toList) ∧
      ("A  B".toList).filter plainChar = ("A B".toList).filter plainChar :=
  canonicalize_preserves_nonwhitespace ("A  B".toList) ("A B".toList) (by decide)

end AbcDb
